import Mathlib

/-!
Shallow embedding of `megatron/core/optimizer/cpu_offloading/hybrid_optimizer.py`
(`HybridDeviceOptimizer`) and proofs about its partitioning, construction,
synchronization and stepping logic.

Modelling conventions:
* a `torch.Tensor` parameter is modelled by its identity-determining data
  (`Param`): an object id, its element count (`numel`), its residency
  (`isCuda`) and whether it is a host shadow created by this module
  (`isShadow`); `param.detach().cpu()` creates a fresh object, modelled by
  flipping `isShadow` (inputs are caller-owned originals, never shadows);
* Python dicts keyed by tensor identity are insertion-ordered association
  lists (`dictGet?`, `dictSet`, `dictUpdate` mirror `d[k]`, `d[k]=v`,
  `d.update(u)`);
* mutable per-tensor attributes (`.grad`, `.requires_grad`) live in an
  explicit environment `Env` of total functions on `Param`;
* the float `offload_fraction` and the float threshold arithmetic are
  modelled over `ℚ` (for the concrete scenario in the spec,
  `400 * 0.3` is exactly `120` both in IEEE doubles and in `ℚ`);
* CUDA streams/events only sequence asynchronous work and move no data that
  the claims mention; they are not modelled.
-/

namespace HybridOpt

/-- Identity-relevant data of a `torch.Tensor` parameter. Two parameters are
the same Python object exactly when these fields coincide; callers hand in
originals (`isShadow = false`), and `mkCpuCopy` is the only way a shadow
arises. -/
structure Param where
  pid : Nat
  numel : Nat
  isCuda : Bool
  isShadow : Bool
deriving DecidableEq, Repr

/-- The host shadow copy `param.detach().cpu()` (possibly re-wrapped by
`pin_memory()`, which does not change the data we track): a fresh host
tensor with the same element count. -/
def mkCpuCopy (p : Param) : Param :=
  { p with isCuda := false, isShadow := true }

/-- Python `d[k]` as an option (`none` models `KeyError`). -/
def dictGet? {α β : Type} [DecidableEq α] (d : List (α × β)) (k : α) : Option β :=
  match d with
  | [] => none
  | (k', v) :: rest => if k' = k then some v else dictGet? rest k

/-- Python `d.get(k, v0)`. -/
def dictGetD {α β : Type} [DecidableEq α] (d : List (α × β)) (k : α) (v0 : β) : β :=
  (dictGet? d k).getD v0

/-- Python `k in d`. -/
def dictContains {α β : Type} [DecidableEq α] (d : List (α × β)) (k : α) : Bool :=
  (dictGet? d k).isSome

/-- Python `d[k] = v`: overwrite in place, or append a new key at the end. -/
def dictSet {α β : Type} [DecidableEq α] (d : List (α × β)) (k : α) (v : β) : List (α × β) :=
  match d with
  | [] => [(k, v)]
  | (k', v') :: rest => if k' = k then (k, v) :: rest else (k', v') :: dictSet rest k v

/-- Python `d.update(u)`: set every entry of `u` in order. -/
def dictUpdate {α β : Type} [DecidableEq α] (d u : List (α × β)) : List (α × β) :=
  u.foldl (fun acc kv => dictSet acc kv.1 kv.2) d

/-- The keys of an association-list dict, in order. -/
def dictKeys {α β : Type} (d : List (α × β)) : List α :=
  d.map Prod.fst

/-- A dict coming from a Python dict never repeats a key. -/
def NodupKeys {α β : Type} (d : List (α × β)) : Prop :=
  (dictKeys d).Nodup

instance {α β : Type} [DecidableEq α] (d : List (α × β)) : Decidable (NodupKeys d) := by
  unfold NodupKeys; infer_instance

/-- Exceptions the embedded code can raise. -/
inductive PyError
  | assertOverlapNeedsMultiStreams
  | assertParamNotCuda
  | attributeNoneGradShape
  | typeErrorCopyFromNoneGrad
  | keyErrorCpuCopysMapGpuParam
  | assertEmptyParamGroup
  | keyErrorParamGroupIndex
  | indexErrorParamGroups
deriving DecidableEq, Repr

deriving instance DecidableEq for Except

/-- A hyperparameter group: the `"params"` entry plus the remaining
(hyperparameter-name → value) entries of the group dict. -/
structure Group where
  params : List Param
  attrs : List (String × Int)
deriving DecidableEq, Repr

/-- The `params` constructor argument: a flat tensor list or a group list. -/
inductive ParamsInput
  | flat (ps : List Param)
  | grouped (gs : List Group)
deriving DecidableEq, Repr

/-- All parameters of the input, in traversal order. -/
def ParamsInput.allParams : ParamsInput → List Param
  | .flat ps => ps
  | .grouped gs => (gs.map Group.params).flatten

/-- Python `len(params)` on the constructor argument. -/
def ParamsInput.pyLen : ParamsInput → Nat
  | .flat ps => ps.length
  | .grouped gs => gs.length

/-- Accumulator of the partitioning loop of
`_split_parameters_updated_on_the_cpu_and_gpu`. -/
structure SplitAcc where
  cpu_params : List Param
  gpu_params : List Param
  gpu_params_map_cpu_copy : List (Param × Param)
  cpu_copys_map_gpu_param : List (Param × Param)
deriving DecidableEq, Repr

/-- The empty accumulator the loop starts from. -/
def SplitAcc.empty : SplitAcc := ⟨[], [], [], []⟩

/-- Sum of the element counts, `sum([param.numel() for param in params])`. -/
def totalNumel (ps : List Param) : Nat :=
  (ps.map Param.numel).sum

/-- The comparison `offloaded_params_numel + param.numel() <= offload_threshold`
with `offload_threshold = total_params_numel * offload_fraction`: the exact
rational inequality `c <= total * f`, written with the denominator of `f`
cleared so that it evaluates by integer arithmetic
(`offloadTest_iff` below proves the two forms equivalent). -/
def offloadTest (f : ℚ) (total c : Nat) : Bool :=
  decide ((c : ℤ) * (f.den : ℤ) ≤ (total : ℤ) * f.num)

/-- The loop body of `_split_parameters_updated_on_the_cpu_and_gpu`
(lines 174-188): walk the parameters in order with the running
`offloaded_params_numel`; offload when `offloaded + numel <= threshold`
(asserting the parameter is CUDA-resident and building the shadow and both
identity maps), keep on device otherwise; increment the running count in
both branches. -/
def splitLoop (f : ℚ) (total : Nat) : List Param → Nat → SplitAcc → Except PyError SplitAcc
  | [], _, acc => .ok acc
  | p :: rest, off, acc =>
    if offloadTest f total (off + p.numel) then
      if p.isCuda then
        let c := mkCpuCopy p
        splitLoop f total rest (off + p.numel)
          { cpu_params := acc.cpu_params ++ [c]
            gpu_params := acc.gpu_params
            gpu_params_map_cpu_copy := dictSet acc.gpu_params_map_cpu_copy p c
            cpu_copys_map_gpu_param := dictSet acc.cpu_copys_map_gpu_param c p }
      else .error .assertParamNotCuda
    else
      splitLoop f total rest (off + p.numel)
        { acc with gpu_params := acc.gpu_params ++ [p] }

/-- The flat core of the split: threshold `total_params_numel * offload_fraction`
and the loop from the empty accumulator. -/
def splitFlat (ps : List Param) (f : ℚ) : Except PyError SplitAcc :=
  splitLoop f (totalNumel ps) ps 0 .empty

/-- The dict key whose entry `_split_parameters_updated_on_the_cpu_and_gpu`
and `_sync_hdo_param_groups_to_sub_optimizers` pop from copied group attrs. -/
def subOptAttrsKey : String := "_param_sub_optimizer_attrs"

/-- Group attrs minus the `"params"` entry (a separate field here) and minus
`"_param_sub_optimizer_attrs"` (`group_defaults.pop(..., None)`; a Python
dict holds a key at most once, so removing every occurrence is the same). -/
def stripGroupAttrs (attrs : List (String × Int)) : List (String × Int) :=
  attrs.filter (fun kv => kv.1 ≠ subOptAttrsKey)

/-- Shadows of the offloaded members of a group, in group order
(`_cpu_params` of the regrouping pass, lines 197-203). -/
def regroupCpuParams (g2c : List (Param × Param)) (ps : List Param) : List Param :=
  ps.filterMap (fun p => dictGet? g2c p)

/-- The members of a group kept on device (`_gpu_params`). -/
def regroupGpuParams (g2c : List (Param × Param)) (ps : List Param) : List Param :=
  ps.filter (fun p => ¬ dictContains g2c p)

/-- The host-side groups of the regrouping pass: one per input group with a
nonempty offloaded part, holding the shadows and the stripped attrs. -/
def regroupCpu (g2c : List (Param × Param)) (gs : List Group) : List Group :=
  gs.filterMap (fun g =>
    let cp := regroupCpuParams g2c g.params
    if cp = [] then none else some ⟨cp, stripGroupAttrs g.attrs⟩)

/-- The device-side groups of the regrouping pass. -/
def regroupGpu (g2c : List (Param × Param)) (gs : List Group) : List Group :=
  gs.filterMap (fun g =>
    let gp := regroupGpuParams g2c g.params
    if gp = [] then none else some ⟨gp, stripGroupAttrs g.attrs⟩)

/-- The 4-tuple `_split_parameters_updated_on_the_cpu_and_gpu` returns:
host side, device side (flat lists or group lists, matching the input
shape), and the two identity maps. -/
structure SplitOut where
  cpuSide : ParamsInput
  gpuSide : ParamsInput
  g2c : List (Param × Param)
  c2g : List (Param × Param)
deriving DecidableEq, Repr

/-- `_split_parameters_updated_on_the_cpu_and_gpu` (lines 155-216): an empty
input returns empty flat results; a grouped input is flattened, run through
the same loop, and regrouped. -/
def split (input : ParamsInput) (f : ℚ) : Except PyError SplitOut :=
  match input with
  | .flat ps =>
      (splitFlat ps f).map (fun a =>
        ⟨.flat a.cpu_params, .flat a.gpu_params,
          a.gpu_params_map_cpu_copy, a.cpu_copys_map_gpu_param⟩)
  | .grouped gs =>
      if gs.length = 0 then
        .ok ⟨.flat [], .flat [], [], []⟩
      else
        (splitFlat ((gs.map Group.params).flatten) f).map (fun a =>
          ⟨.grouped (regroupCpu a.gpu_params_map_cpu_copy gs),
            .grouped (regroupGpu a.gpu_params_map_cpu_copy gs),
            a.gpu_params_map_cpu_copy, a.cpu_copys_map_gpu_param⟩)

/-- A sub-optimizer collaborator: its hyperparameter groups and its lazily
populated per-parameter state (a dict from parameter identity to a state
token standing for the field dict). -/
structure SubOptimizer where
  param_groups : List Group
  state : List (Param × Nat)
deriving DecidableEq, Repr

/-- Modelled from the spec: the opaque sub-optimizer factory
(`cpu_optimizer_cls` / `gpu_optimizer_cls`, e.g. a torch optimizer class)
builds an instance over the given groups with empty lazy state; a flat
tensor list becomes a single group. -/
def mkSubOptimizerFromInput : ParamsInput → SubOptimizer
  | .flat ps => ⟨[⟨ps, []⟩], []⟩
  | .grouped gs => ⟨gs, []⟩

/-- All parameters a sub-optimizer owns, in group order
(`_param_generator`). -/
def SubOptimizer.allParams (o : SubOptimizer) : List Param :=
  (o.param_groups.map Group.params).flatten

/-- The `param_optimizer_mapping`: a dict in the overlap branch, the
constant function `lambda _: 0` otherwise. -/
inductive RoutingTable
  | table (d : List (Param × Nat))
  | const0
deriving DecidableEq, Repr

/-- Looking a parameter up in the routing table. -/
def RoutingTable.lookup? : RoutingTable → Param → Option Nat
  | .table d, p => dictGet? d p
  | .const0, _ => some 0

/-- The three results of `build_cpu_optimizer_list`. -/
structure CpuBuild where
  cpu_optimizers : List SubOptimizer
  param_optimizer_mapping : List (Param × Nat)
  n_params : List Nat
deriving DecidableEq, Repr

/-- One iteration of `build_cpu_optimizer_list` per parameter: record the
parameter's routing index (the number of optimizers built so far), then
append a fresh optimizer over the single-parameter group carrying the
parameter's group attrs (`[]` for a flat input). -/
def buildCpuLoop (pas : List (Param × List (String × Int))) (b : CpuBuild) : CpuBuild :=
  pas.foldl (fun b pa =>
    { cpu_optimizers := b.cpu_optimizers ++ [mkSubOptimizerFromInput (.grouped [⟨[pa.1], pa.2⟩])]
      param_optimizer_mapping := dictSet b.param_optimizer_mapping pa.1 b.cpu_optimizers.length
      n_params := b.n_params ++ [1] }) b

/-- `build_cpu_optimizer_list` (lines 115-153): one sub-optimizer per
parameter; for grouped input the nested group/parameter loops are the
single loop over the flattened (parameter, group-attrs) pairs. -/
def buildCpuOptimizerList : ParamsInput → CpuBuild
  | .flat ps => buildCpuLoop (ps.map (fun p => (p, []))) ⟨[], [], []⟩
  | .grouped gs =>
      buildCpuLoop ((gs.map (fun g => g.params.map (fun p => (p, g.attrs)))).flatten) ⟨[], [], []⟩

/-- The mutable per-tensor attributes: `tensor.grad` (a token for the
gradient payload, `none` for Python `None`) and `tensor.requires_grad`. -/
structure Env where
  grad : Param → Option Nat
  requiresGrad : Param → Bool

/-- Assignment `p.grad = g`. -/
def setGrad (e : Env) (p : Param) (g : Option Nat) : Env :=
  { e with grad := fun q => if q = p then g else e.grad q }

/-- Assignment `p.requires_grad = b`. -/
def setReq (e : Env) (p : Param) (b : Bool) : Env :=
  { e with requiresGrad := fun q => if q = p then b else e.requiresGrad q }

/-- Fresh shadow tensors start with `grad = None`, and the split loop sets
`param_cpu_copy.requires_grad = True` on each. -/
def registerShadows (e : Env) (cs : List Param) : Env :=
  cs.foldl (fun e c => setReq (setGrad e c none) c true) e

/-- The `HybridDeviceOptimizer` object state the claims mention: the unified
groups (over original parameters), the sub-optimizers and routing data, the
identity maps, the host gradient buffers (`cpu_copy_map_grad`; `none` means
not yet allocated) and the unified `state` dict. -/
structure HDO where
  param_groups : List Group
  cpu_optimizers : List SubOptimizer
  gpu_optimizer : Option SubOptimizer
  routing : RoutingTable
  n_params : List Nat
  g2c : List (Param × Param)
  c2g : List (Param × Param)
  cpu_copy_map_grad : Param → Option Nat
  hdo_state : List (Param × Nat)

/-- The `sub_optimizers` property: CPU optimizers then the GPU optimizer. -/
def subOptimizersList (h : HDO) : List SubOptimizer :=
  h.cpu_optimizers ++ h.gpu_optimizer.toList

/-- Modelled from the spec: the base-class construction
(`torch.optim.Optimizer.__init__`) wraps a flat tensor list into a single
unified group and adopts given groups as they are; it stores the recognized
options in `defaults` and performs no overlap/multi-stream validation. -/
def unifiedGroups : ParamsInput → List Group
  | .flat ps => [⟨ps, []⟩]
  | .grouped gs => gs

/-- Construction configuration (the flags the claims mention). -/
structure Config where
  offload_fraction : ℚ
  overlap : Bool
  multi_streams : Bool
deriving Repr

/-- `_init_sub_optimizers` (lines 76-113): split the parameters, build the
CPU-side optimizer list (per-parameter when `overlap` and the CPU side is
nonempty, a single spanning instance when the CPU side is nonempty, none
otherwise), build at most one GPU optimizer, start with no gradient buffers,
and register the freshly created shadow tensors in the environment. -/
def initSubOptimizers (cfg : Config) (input : ParamsInput) (env : Env) :
    Except PyError (HDO × Env) := do
  let so ← split input cfg.offload_fraction
  let hdoBase : HDO :=
    if cfg.overlap ∧ 0 < so.cpuSide.pyLen then
      let b := buildCpuOptimizerList so.cpuSide
      { param_groups := []
        cpu_optimizers := b.cpu_optimizers
        gpu_optimizer := none
        routing := .table b.param_optimizer_mapping
        n_params := b.n_params
        g2c := so.g2c
        c2g := so.c2g
        cpu_copy_map_grad := fun _ => none
        hdo_state := [] }
    else
      { param_groups := []
        cpu_optimizers :=
          if 0 < so.cpuSide.pyLen then [mkSubOptimizerFromInput so.cpuSide] else []
        gpu_optimizer := none
        routing := .const0
        n_params := [so.cpuSide.pyLen]
        g2c := so.g2c
        c2g := so.c2g
        cpu_copy_map_grad := fun _ => none
        hdo_state := [] }
  let hdo := { hdoBase with
    gpu_optimizer :=
      if 0 < so.gpuSide.pyLen then some (mkSubOptimizerFromInput so.gpuSide) else none }
  .ok (hdo, registerShadows env (so.c2g.map Prod.fst))

/-- `HybridDeviceOptimizer.__init__` (lines 16-46): base-class construction
of the unified groups, then the `assert not overlap or multi_streams`
check, then `_init_sub_optimizers`. -/
def hdoInit (cfg : Config) (input : ParamsInput) (env : Env) :
    Except PyError (HDO × Env) := do
  let unified := unifiedGroups input
  if cfg.overlap ∧ ¬ cfg.multi_streams then
    .error .assertOverlapNeedsMultiStreams
  else
    let (h, e) ← initSubOptimizers cfg input env
    .ok ({ h with param_groups := unified }, e)

/-- The whole mutable world a step acts on: the optimizer object and the
tensor attributes. -/
structure Sys where
  hdo : HDO
  env : Env

/-- The (group index, position, parameter) triples of the unified groups in
iteration order of the nested loops of lines 249-252. -/
def indexedUnifiedPairs (groups : List Group) : List ((Nat × Nat) × Param) :=
  (groups.enum.map (fun ig => ig.2.params.enum.map (fun pp => ((ig.1, pp.1), pp.2)))).flatten

/-- The index `param_in_param_group_index` of
`_sync_hdo_param_groups_to_sub_optimizers` (lines 248-252): every unified
parameter, remapped through `gpu_params_map_cpu_copy.get(param, param)`,
mapped to its (group index, position); later entries overwrite earlier
ones as in a Python dict. -/
def paramGroupIndex (h : HDO) : Param → Option (Nat × Nat) :=
  (indexedUnifiedPairs h.param_groups).foldl (fun f ip =>
    fun q => if q = dictGetD h.g2c ip.2 ip.2 then some ip.1 else f q)
    (fun _ => none)

/-- One group of the `new_param_groups` construction (lines 256-266):
assert the group is nonempty, locate the governing unified group through
the first parameter, and update a copy of the group with the unified
group's attrs minus `"params"` and `"_param_sub_optimizer_attrs"`. -/
def syncOneGroup (unified : List Group) (index : Param → Option (Nat × Nat)) (g : Group) :
    Except PyError Group :=
  match g.params with
  | [] => .error .assertEmptyParamGroup
  | p :: _ =>
    match index p with
    | none => .error .keyErrorParamGroupIndex
    | some gi =>
      match unified.get? gi.1 with
      | none => .error .indexErrorParamGroups
      | some u => .ok ⟨g.params, dictUpdate g.attrs (stripGroupAttrs u.attrs)⟩

/-- Python `hasattr(tensor, "grad")`: a torch tensor always exposes the
`grad` attribute — it is `None` when no gradient is present — so this is
`true` for every parameter. -/
def hasattrGrad (_ : Param) : Bool := true

/-- Gradient staging for one host shadow (lines 269-282): look up the
device parameter (`KeyError` if unmapped); if no buffer exists yet,
allocate one shaped like `gpu_param.grad` — evaluating
`gpu_param.grad.shape` raises when the gradient is `None`; then, since
`hasattr(gpu_param, "grad")` always holds, copy the device gradient into
the buffer — `Tensor.copy_(None)` raises when it is `None` — attach the
buffer as the shadow's gradient and set `requires_grad = True`; the dead
`else` branch would set `requires_grad = False`. -/
def stageOne (c2g : List (Param × Param)) (bufs : Param → Option Nat) (env : Env)
    (p : Param) : Except PyError ((Param → Option Nat) × Env) := do
  let gpu ← match dictGet? c2g p with
    | some g => Except.ok g
    | none => Except.error .keyErrorCpuCopysMapGpuParam
  let bufs ← match bufs p with
    | some _ => Except.ok bufs
    | none =>
        match env.grad gpu with
        | none => Except.error .attributeNoneGradShape
        | some _ => Except.ok (fun q => if q = p then some 0 else bufs q)
  if hasattrGrad gpu then
    match env.grad gpu with
    | none => Except.error .typeErrorCopyFromNoneGrad
    | some gv =>
        Except.ok (fun q => if q = p then some gv else bufs q,
          setReq (setGrad env p (some gv)) p true)
  else
    Except.ok (bufs, setReq env p false)

/-- Gradient staging over a host optimizer's parameters in order. -/
def stageParams (c2g : List (Param × Param)) :
    List Param → (Param → Option Nat) → Env → Except PyError ((Param → Option Nat) × Env)
  | [], bufs, env => .ok (bufs, env)
  | p :: rest, bufs, env => do
      let be ← stageOne c2g bufs env p
      stageParams c2g rest be.1 be.2

/-- The loop body of `_sync_hdo_param_groups_to_sub_optimizers`
(lines 254-284) over the CPU optimizers: rebuild each one's groups from the
unified attrs, stage the gradients of its parameters, and install the new
groups. Event recording on `_d2h_stream` only sequences the asynchronous
copies and is not modelled. -/
def syncCpuLoop (unified : List Group) (index : Param → Option (Nat × Nat))
    (c2g : List (Param × Param)) :
    List SubOptimizer → (Param → Option Nat) → Env →
      Except PyError (List SubOptimizer × (Param → Option Nat) × Env)
  | [], bufs, env => .ok ([], bufs, env)
  | o :: rest, bufs, env => do
      let groups ← o.param_groups.mapM (syncOneGroup unified index)
      let be ← stageParams c2g o.allParams bufs env
      let r ← syncCpuLoop unified index c2g rest be.1 be.2
      .ok ({ o with param_groups := groups } :: r.1, r.2)

/-- `_sync_hdo_param_groups_to_sub_optimizers`, assembled: the CPU loop and
the group rebuild of the GPU optimizer (staging is skipped for it by the
`optimizer is not self.gpu_optimizer` guard). -/
def syncHdoParamGroupsToSubOptimizers (s : Sys) : Except PyError Sys := do
  let index := paramGroupIndex s.hdo
  let r ← syncCpuLoop s.hdo.param_groups index s.hdo.c2g
    s.hdo.cpu_optimizers s.hdo.cpu_copy_map_grad s.env
  let gpuRes ← match s.hdo.gpu_optimizer with
    | none => Except.ok (none : Option SubOptimizer)
    | some g => do
        let groups ← g.param_groups.mapM (syncOneGroup s.hdo.param_groups index)
        Except.ok (some { g with param_groups := groups })
  .ok ⟨{ s.hdo with
          cpu_optimizers := r.1
          gpu_optimizer := gpuRes
          cpu_copy_map_grad := r.2.1 },
        r.2.2⟩

/-- `_sync_sub_optimizers_state_to_hdo` (lines 218-235): rebuild the
unified state dict from scratch, installing every sub-optimizer's state
entry under the device-identity-remapped key. -/
def syncSubOptimizersStateToHdo (s : Sys) : Sys :=
  let newState := (subOptimizersList s.hdo).foldl (fun ns opt =>
    opt.state.foldl (fun ns kv =>
      dictSet ns (dictGetD s.hdo.c2g kv.1 kv.1) kv.2) ns) []
  ⟨{ s.hdo with hdo_state := newState }, s.env⟩

/-- Modelled from the spec: the opaque sub-optimizer `step()` performs the
update math and lazily populates a per-parameter state entry (momentum
buffers and the like) for every parameter that currently has a gradient;
it does not touch gradients. -/
def subOptStep (env : Env) (o : SubOptimizer) : SubOptimizer :=
  { o with state := o.allParams.foldl (fun st p =>
      match env.grad p with
      | some _ => dictSet st p 1
      | none => st) o.state }

/-- Modelled from the spec: the opaque sub-optimizer
`zero_grad(set_to_none=True)` clears the gradient of every parameter in
its groups. -/
def subOptZeroGrad (env : Env) (o : SubOptimizer) : Env :=
  o.allParams.foldl (fun e p => setGrad e p none) env

/-- `step` with its registered hooks (lines 64-74, 309-325): the pre-step
hook syncs groups and stages gradients, the GPU optimizer steps on the
step stream, each CPU optimizer steps after waiting on its copy event
(pure sequencing, not modelled), and the post-step hook rebuilds the
unified state. The per-CPU-optimizer copy-back hook moves parameter data
only and is not modelled. -/
def hdoStep (s : Sys) : Except PyError Sys := do
  let s ← syncHdoParamGroupsToSubOptimizers s
  let s : Sys :=
    ⟨{ s.hdo with gpu_optimizer := s.hdo.gpu_optimizer.map (subOptStep s.env) }, s.env⟩
  let s : Sys :=
    ⟨{ s.hdo with cpu_optimizers := s.hdo.cpu_optimizers.map (subOptStep s.env) }, s.env⟩
  .ok (syncSubOptimizersStateToHdo s)

/-- `zero_grad` (lines 327-329): delegate to every sub-optimizer. -/
def hdoZeroGrad (s : Sys) : Sys :=
  ⟨s.hdo, (subOptimizersList s.hdo).foldl subOptZeroGrad s.env⟩

/-- `dummy_step` (lines 331-341): give every unified parameter a
placeholder gradient (`torch.randn_like`, token `1`), step once, zero the
gradients. -/
def dummyStep (s : Sys) : Except PyError Sys := do
  let env := ((s.hdo.param_groups.map Group.params).flatten).foldl
    (fun e p => setGrad e p (some 1)) s.env
  let s ← hdoStep ⟨s.hdo, env⟩
  .ok (hdoZeroGrad s)

/-! Specification-side definitions the claim statements compare the code
against. -/

/-- The parameters the prefix-sum rule assigns to the host, walking from a
running offloaded count `off`. -/
def offloadedOf (f : ℚ) (total : Nat) : Nat → List Param → List Param
  | _, [] => []
  | off, p :: rest =>
    if offloadTest f total (off + p.numel) then p :: offloadedOf f total (off + p.numel) rest
    else offloadedOf f total (off + p.numel) rest

/-- The parameters the prefix-sum rule keeps on the device. -/
def retainedOf (f : ℚ) (total : Nat) : Nat → List Param → List Param
  | _, [] => []
  | off, p :: rest =>
    if offloadTest f total (off + p.numel) then retainedOf f total (off + p.numel) rest
    else p :: retainedOf f total (off + p.numel) rest

/-- The running `offloaded_params_numel` when the `i`-th parameter is
visited: the sum of the element counts of the previous parameters. -/
def sumNumelTake (ps : List Param) (i : Nat) : Nat :=
  totalNumel (ps.take i)

/-- Well-formed constructor input: parameters are pairwise distinct Python
objects (distinct ids) and are caller-owned originals, not shadows this
module created. -/
def WFParams (ps : List Param) : Prop :=
  (ps.map Param.pid).Nodup ∧ ∀ p ∈ ps, p.isShadow = false

instance (ps : List Param) : Decidable (WFParams ps) := by
  unfold WFParams; infer_instance

/-- The flattened (parameter, owning-group attrs) pairs
`build_cpu_optimizer_list` walks: a flat input owns no group attrs. -/
def flatPairs : ParamsInput → List (Param × List (String × Int))
  | .flat ps => ps.map (fun p => (p, []))
  | .grouped gs => (gs.map (fun g => g.params.map (fun p => (p, g.attrs)))).flatten

/-- The hyperparameter groups of the CPU sub-optimizers and of the GPU
sub-optimizer: the data C8 compares between two synchronizations. -/
def subGroupsProj (s : Sys) : List (List Group) × Option (List Group) :=
  (s.hdo.cpu_optimizers.map SubOptimizer.param_groups,
    s.hdo.gpu_optimizer.map SubOptimizer.param_groups)

/-- Well-formedness of a constructed optimizer state, as Python guarantees
it: unified group attr dicts hold each key once, and the shadow-to-device
map never maps onto a shadow (its values are caller parameters, its keys
the shadows this module created). -/
def SysWF (s : Sys) : Prop :=
  (∀ g ∈ s.hdo.param_groups, NodupKeys g.attrs)
  ∧ ∀ kv ∈ s.hdo.c2g, dictGet? s.hdo.c2g kv.2 = none

instance (s : Sys) : Decidable (SysWF s) := by
  unfold SysWF; infer_instance

/-! Concrete inputs used by the closed instances below. -/

/-- The four device parameters of the spec scenario, numels 100/50/200/50. -/
def scenarioParams : List Param :=
  [⟨1, 100, true, false⟩, ⟨2, 50, true, false⟩, ⟨3, 200, true, false⟩, ⟨4, 50, true, false⟩]

/-- A single CUDA parameter with two elements. -/
def exParam : Param := ⟨1, 2, true, false⟩

/-- The shadow copy of `exParam`. -/
def exShadow : Param := mkCpuCopy exParam

/-- An environment with no gradients and `requires_grad = False` everywhere. -/
def exEnv : Env := ⟨fun _ => none, fun _ => false⟩

/-- A CUDA parameter with zero elements (`torch.Tensor` allows empty
tensors), exercising the `0 <= 0` boundary of the partitioning rule. -/
def exZeroNumel : Param := ⟨1, 0, true, false⟩

/-- A small constructed system: one host sub-optimizer over the shadow of
`exParam`, the identity maps for it, a device gradient present, no
buffers; used to evaluate the synchronization functions on a concrete
state. -/
def exSys : Sys :=
  ⟨{ param_groups := [⟨[exParam], [("lr", 3)]⟩]
     cpu_optimizers := [⟨[⟨[exShadow], [("lr", 5)]⟩], []⟩]
     gpu_optimizer := none
     routing := .const0
     n_params := [1]
     g2c := [(exParam, exShadow)]
     c2g := [(exShadow, exParam)]
     cpu_copy_map_grad := fun _ => none
     hdo_state := [] },
    ⟨fun q => if q = exParam then some 7 else none, fun _ => true⟩⟩

/-- The rational 3/10, the scenario offload fraction, as an explicit
reduced fraction (so it evaluates in the kernel). -/
def ratScenario : ℚ := ⟨3, 10, by decide, by decide⟩

/-- The rational 1 as an explicit reduced fraction. -/
def ratOne : ℚ := ⟨1, 1, by decide, by decide⟩

/-- The rational 0 as an explicit reduced fraction. -/
def ratZero : ℚ := ⟨0, 1, by decide, by decide⟩

/-! Dictionary lemmas. -/

theorem dictGet?_nil {α β : Type} [DecidableEq α] (x : α) :
    dictGet? ([] : List (α × β)) x = none := rfl

theorem dictContains_nil {α β : Type} [DecidableEq α] (x : α) :
    dictContains ([] : List (α × β)) x = false := rfl

theorem dictGet?_dictSet {α β : Type} [DecidableEq α] (d : List (α × β)) (k x : α) (v : β) :
    dictGet? (dictSet d k v) x = if k = x then some v else dictGet? d x := by
  induction d with
  | nil => rfl
  | cons kv rest ih =>
    obtain ⟨k', v'⟩ := kv
    simp only [dictSet]
    by_cases h1 : k' = k
    · subst h1
      simp only [if_pos rfl, dictGet?]
      by_cases h2 : k' = x <;> simp [h2]
    · simp only [if_neg h1, dictGet?]
      by_cases h2 : k' = x
      · subst h2
        rw [if_pos rfl, if_neg (fun h => h1 h.symm), if_pos rfl]
      · rw [if_neg h2, ih, if_neg h2]

theorem dictContains_dictSet {α β : Type} [DecidableEq α] (d : List (α × β)) (k x : α) (v : β) :
    dictContains (dictSet d k v) x = (decide (k = x) || dictContains d x) := by
  unfold dictContains
  rw [dictGet?_dictSet]
  by_cases h : k = x <;> simp [h]

theorem dictSet_eq_append {α β : Type} [DecidableEq α] (d : List (α × β)) (k : α) (v : β)
    (h : dictContains d k = false) : dictSet d k v = d ++ [(k, v)] := by
  induction d with
  | nil => rfl
  | cons kv rest ih =>
    obtain ⟨k', v'⟩ := kv
    simp only [dictContains, dictGet?] at h
    by_cases h1 : k' = k
    · rw [if_pos h1] at h; simp at h
    · rw [if_neg h1] at h
      simp only [dictSet, if_neg h1, List.cons_append, List.cons.injEq, true_and]
      exact ih h

theorem dictContains_append {α β : Type} [DecidableEq α] (d₁ d₂ : List (α × β)) (x : α) :
    dictContains (d₁ ++ d₂) x = (dictContains d₁ x || dictContains d₂ x) := by
  induction d₁ with
  | nil => simp [dictContains, dictGet?]
  | cons kv rest ih =>
    obtain ⟨k', v'⟩ := kv
    simp only [dictContains, dictGet?, List.cons_append] at *
    by_cases h : k' = x <;> simp [h, ih]

theorem dictContains_false_iff {α β : Type} [DecidableEq α] (d : List (α × β)) (x : α) :
    dictContains d x = false ↔ dictGet? d x = none := by
  unfold dictContains
  cases dictGet? d x <;> simp

theorem dictGet?_map_self {α β : Type} [DecidableEq α] (f : α → β) (l : List α) (x : α) :
    dictGet? (l.map (fun a => (a, f a))) x = if x ∈ l then some (f x) else none := by
  induction l with
  | nil => rfl
  | cons a rest ih =>
    simp only [List.map_cons, dictGet?]
    by_cases h : a = x
    · subst h; simp
    · rw [if_neg h, ih]
      by_cases hx : x ∈ rest
      · rw [if_pos hx, if_pos (List.mem_cons_of_mem a hx)]
      · have hninc : x ∉ a :: rest := by
          intro hmem
          rcases List.mem_cons.mp hmem with h1 | h1
          · exact h h1.symm
          · exact hx h1
        rw [if_neg hx, if_neg hninc]

theorem dictGet?_map_pair {α κ : Type} [DecidableEq κ] (k : α → κ) (l : List α) (x : κ)
    (p : α) (h : dictGet? (l.map (fun a => (k a, a))) x = some p) : p ∈ l ∧ k p = x := by
  induction l with
  | nil => simp [dictGet?] at h
  | cons a rest ih =>
    simp only [List.map_cons, dictGet?] at h
    by_cases h1 : k a = x
    · rw [if_pos h1] at h
      have hpa : a = p := by
        injection h
      subst hpa
      exact ⟨List.mem_cons_self a rest, h1⟩
    · rw [if_neg h1] at h
      obtain ⟨hm, hk⟩ := ih h
      exact ⟨List.mem_cons_of_mem a hm, hk⟩

theorem dictGet?_map_pair_self {α κ : Type} [DecidableEq κ] (k : α → κ) (l : List α)
    (hinj : ∀ p ∈ l, ∀ q ∈ l, k p = k q → p = q) (p : α) (hp : p ∈ l) :
    dictGet? (l.map (fun a => (k a, a))) (k p) = some p := by
  induction l with
  | nil => simp at hp
  | cons a rest ih =>
    simp only [List.map_cons, dictGet?]
    by_cases h1 : k a = k p
    · rw [if_pos h1]
      have : a = p :=
        hinj a (List.mem_cons_self a rest) p hp h1
      rw [this]
    · rw [if_neg h1]
      have hpr : p ∈ rest := by
        rcases List.mem_cons.mp hp with h | h
        · exact absurd (congrArg k h.symm) h1
        · exact h
      exact ih (fun x hx y hy => hinj x (List.mem_cons_of_mem a hx) y (List.mem_cons_of_mem a hy))
        hpr

theorem foldl_dictSet_eq_map {α β σ : Type} [DecidableEq α] (key : σ → α) (val : σ → β)
    (l : List σ) (d : List (α × β))
    (hfresh : ∀ s ∈ l, dictContains d (key s) = false)
    (hnd : (l.map key).Nodup) :
    l.foldl (fun d s => dictSet d (key s) (val s)) d = d ++ l.map (fun s => (key s, val s)) := by
  induction l generalizing d with
  | nil => simp
  | cons a rest ih =>
    simp only [List.map_cons, List.nodup_cons] at hnd
    simp only [List.foldl_cons, List.map_cons]
    rw [dictSet_eq_append d (key a) (val a) (hfresh a (List.mem_cons_self a rest))]
    rw [ih (d ++ [(key a, val a)])]
    · simp
    · intro s hs
      rw [dictContains_append]
      have hne : ¬ key a = key s := fun h => hnd.1 (h ▸ List.mem_map_of_mem key hs)
      have h1 : dictContains d (key s) = false := hfresh s (List.mem_cons_of_mem a hs)
      have h2 : dictContains [(key a, val a)] (key s) = false := by
        simp [dictContains, dictGet?, hne]
      rw [h1, h2]
      rfl
    · exact hnd.2

/-! Lemmas about the partitioning loop. -/

theorem offloadTest_iff (f : ℚ) (total c : Nat) :
    offloadTest f total c = true ↔ ((c : Nat) : ℚ) ≤ ((total : Nat) : ℚ) * f := by
  have hden : (0 : ℚ) < ((f.den : Nat) : ℚ) := by
    exact_mod_cast Nat.pos_of_ne_zero f.den_nz
  have h1 : ((total : Nat) : ℚ) * f = (((total : ℤ) * f.num : ℤ) : ℚ) / ((f.den : Nat) : ℚ) := by
    push_cast
    rw [mul_div_assoc, Rat.num_div_den f]
  rw [h1]
  unfold offloadTest
  rw [decide_eq_true_iff, le_div_iff₀ hden]
  constructor
  · intro h
    exact_mod_cast h
  · intro h
    exact_mod_cast h

theorem splitLoop_ok (f : ℚ) (total : Nat) (ps : List Param) (off : Nat) (acc acc' : SplitAcc)
    (h : splitLoop f total ps off acc = .ok acc') :
    acc'.cpu_params = acc.cpu_params ++ (offloadedOf f total off ps).map mkCpuCopy
    ∧ acc'.gpu_params = acc.gpu_params ++ retainedOf f total off ps
    ∧ acc'.gpu_params_map_cpu_copy
        = (offloadedOf f total off ps).foldl (fun d p => dictSet d p (mkCpuCopy p))
            acc.gpu_params_map_cpu_copy
    ∧ acc'.cpu_copys_map_gpu_param
        = (offloadedOf f total off ps).foldl (fun d p => dictSet d (mkCpuCopy p) p)
            acc.cpu_copys_map_gpu_param
    ∧ ∀ p ∈ offloadedOf f total off ps, p.isCuda = true := by
  induction ps generalizing off acc with
  | nil =>
    simp only [splitLoop] at h
    cases h
    simp [offloadedOf, retainedOf]
  | cons p rest ih =>
    simp only [splitLoop] at h
    by_cases hth : offloadTest f total (off + p.numel) = true
    · rw [if_pos hth] at h
      by_cases hc : p.isCuda = true
      · rw [if_pos hc] at h
        obtain ⟨h1, h2, h3, h4, h5⟩ := ih _ _ h
        simp only [offloadedOf, retainedOf, if_pos hth]
        refine ⟨?_, ?_, ?_, ?_, ?_⟩
        · rw [h1]; simp
        · rw [h2]
        · rw [h3]; rfl
        · rw [h4]; rfl
        · intro q hq
          rcases List.mem_cons.mp hq with rfl | hq
          · exact hc
          · exact h5 q hq
      · rw [if_neg hc] at h
        cases h
    · rw [if_neg hth] at h
      obtain ⟨h1, h2, h3, h4, h5⟩ := ih _ _ h
      simp only [offloadedOf, retainedOf, if_neg hth]
      refine ⟨h1, ?_, h3, h4, h5⟩
      rw [h2]; simp

theorem splitLoop_error (f : ℚ) (total : Nat) (ps : List Param) (off : Nat) (acc : SplitAcc)
    (e : PyError) (h : splitLoop f total ps off acc = .error e) : e = .assertParamNotCuda := by
  induction ps generalizing off acc with
  | nil => simp only [splitLoop] at h; cases h
  | cons p rest ih =>
    simp only [splitLoop] at h
    by_cases hth : offloadTest f total (off + p.numel) = true
    · rw [if_pos hth] at h
      by_cases hc : p.isCuda = true
      · rw [if_pos hc] at h; exact ih _ _ h
      · rw [if_neg hc] at h; cases h; rfl
    · rw [if_neg hth] at h; exact ih _ _ h

theorem splitLoop_isCuda_ok (f : ℚ) (total : Nat) (ps : List Param) (off : Nat) (acc : SplitAcc)
    (hc : ∀ p ∈ offloadedOf f total off ps, p.isCuda = true) :
    ∃ acc', splitLoop f total ps off acc = .ok acc' := by
  induction ps generalizing off acc with
  | nil => exact ⟨acc, rfl⟩
  | cons p rest ih =>
    simp only [splitLoop]
    by_cases hth : offloadTest f total (off + p.numel) = true
    · rw [if_pos hth]
      have hol : offloadedOf f total off (p :: rest) = p :: offloadedOf f total (off + p.numel) rest := by
        simp only [offloadedOf]
        rw [if_pos hth]
      have hpc : p.isCuda = true := by
        apply hc
        rw [hol]
        exact List.mem_cons_self p _
      rw [if_pos hpc]
      apply ih
      intro q hq
      apply hc
      rw [hol]
      exact List.mem_cons_of_mem p hq
    · rw [if_neg hth]
      have hol : offloadedOf f total off (p :: rest) = offloadedOf f total (off + p.numel) rest := by
        simp only [offloadedOf]
        rw [if_neg hth]
      apply ih
      intro q hq
      apply hc
      rw [hol]
      exact hq

theorem offloaded_append_retained_perm (f : ℚ) (total : Nat) (off : Nat) (ps : List Param) :
    (offloadedOf f total off ps ++ retainedOf f total off ps).Perm ps := by
  induction ps generalizing off with
  | nil => simp [offloadedOf, retainedOf]
  | cons p rest ih =>
    simp only [offloadedOf, retainedOf]
    by_cases hth : offloadTest f total (off + p.numel) = true
    · rw [if_pos hth, if_pos hth]
      exact (ih (off + p.numel)).cons p
    · rw [if_neg hth, if_neg hth]
      exact List.perm_middle.trans ((ih (off + p.numel)).cons p)

theorem offloadedOf_sublist (f : ℚ) (total : Nat) (off : Nat) (ps : List Param) :
    List.Sublist (offloadedOf f total off ps) ps := by
  induction ps generalizing off with
  | nil => simp [offloadedOf]
  | cons p rest ih =>
    simp only [offloadedOf]
    by_cases hth : offloadTest f total (off + p.numel) = true
    · rw [if_pos hth]; exact (ih (off + p.numel)).cons₂ p
    · rw [if_neg hth]; exact (ih (off + p.numel)).cons p

theorem retainedOf_sublist (f : ℚ) (total : Nat) (off : Nat) (ps : List Param) :
    List.Sublist (retainedOf f total off ps) ps := by
  induction ps generalizing off with
  | nil => simp [retainedOf]
  | cons p rest ih =>
    simp only [retainedOf]
    by_cases hth : offloadTest f total (off + p.numel) = true
    · rw [if_pos hth]; exact (ih (off + p.numel)).cons p
    · rw [if_neg hth]; exact (ih (off + p.numel)).cons₂ p

theorem except_map_ok {ε α β : Type} (f : α → β) (x : Except ε α) (y : β)
    (h : x.map f = .ok y) : ∃ a, x = .ok a ∧ y = f a := by
  cases x with
  | error e => simp [Except.map] at h
  | ok a =>
    refine ⟨a, rfl, ?_⟩
    simpa [Except.map] using h.symm

theorem filter_mem_eq_of_sublist {α : Type} [DecidableEq α] {l ps : List α}
    (hs : List.Sublist l ps) (hnd : ps.Nodup) :
    ps.filter (fun p => decide (p ∈ l)) = l := by
  induction hs with
  | slnil => rfl
  | @cons l₁ l₂ a hs ih =>
    have hnd2 := List.nodup_cons.mp hnd
    have ha : a ∉ l₁ := fun h => hnd2.1 (hs.subset h)
    rw [List.filter_cons_of_neg (by simpa using ha)]
    exact ih hnd2.2
  | @cons₂ l₁ l₂ a hs ih =>
    have hnd2 := List.nodup_cons.mp hnd
    rw [List.filter_cons_of_pos (by simp)]
    have hcongr : ∀ x ∈ l₂, decide (x ∈ a :: l₁) = decide (x ∈ l₁) := by
      intro x hx
      have hxa : x ≠ a := fun h => hnd2.1 (h ▸ hx)
      simp [List.mem_cons, hxa]
    rw [List.filter_congr hcongr, ih hnd2.2]

theorem wf_nodup (ps : List Param) (hwf : WFParams ps) : ps.Nodup :=
  List.Nodup.of_map Param.pid hwf.1

theorem mkCpuCopy_pid (p : Param) : (mkCpuCopy p).pid = p.pid := rfl

theorem offl_pid_nodup (ps offl : List Param) (hs : List.Sublist offl ps)
    (hwf : WFParams ps) : (offl.map Param.pid).Nodup :=
  List.Nodup.sublist (hs.map Param.pid) hwf.1

theorem shadows_nodup (ps offl : List Param) (hs : List.Sublist offl ps)
    (hwf : WFParams ps) : (offl.map mkCpuCopy).Nodup := by
  apply List.Nodup.of_map Param.pid
  rw [List.map_map]
  have : Param.pid ∘ mkCpuCopy = Param.pid := funext (fun p => rfl)
  rw [this]
  exact offl_pid_nodup ps offl hs hwf

theorem mkCpuCopy_inj_on (ps offl : List Param) (hs : List.Sublist offl ps)
    (hwf : WFParams ps) :
    ∀ p ∈ offl, ∀ q ∈ offl, mkCpuCopy p = mkCpuCopy q → p = q := by
  intro p hp q hq hpq
  have hpid : (mkCpuCopy p).pid = (mkCpuCopy q).pid := congrArg Param.pid hpq
  exact List.inj_on_of_nodup_map (offl_pid_nodup ps offl hs hwf) hp hq hpid

theorem g2c_eq_map (offl : List Param) (hnd : offl.Nodup) :
    offl.foldl (fun d p => dictSet d p (mkCpuCopy p)) ([] : List (Param × Param))
      = offl.map (fun p => (p, mkCpuCopy p)) := by
  have h := foldl_dictSet_eq_map (fun p => p) mkCpuCopy offl []
    (fun s _ => rfl) (by simpa using hnd)
  simpa using h

theorem c2g_eq_map (offl : List Param) (hnd : (offl.map mkCpuCopy).Nodup) :
    offl.foldl (fun d p => dictSet d (mkCpuCopy p) p) ([] : List (Param × Param))
      = offl.map (fun p => (mkCpuCopy p, p)) := by
  have h := foldl_dictSet_eq_map mkCpuCopy (fun p => p) offl []
    (fun s _ => rfl) hnd
  simpa using h

theorem splitFlat_ok_char (ps : List Param) (f : ℚ) (acc : SplitAcc)
    (hwf : WFParams ps) (h : splitFlat ps f = .ok acc) :
    acc.cpu_params = (offloadedOf f (totalNumel ps) 0 ps).map mkCpuCopy
    ∧ acc.gpu_params = retainedOf f (totalNumel ps) 0 ps
    ∧ acc.gpu_params_map_cpu_copy
        = (offloadedOf f (totalNumel ps) 0 ps).map (fun p => (p, mkCpuCopy p))
    ∧ acc.cpu_copys_map_gpu_param
        = (offloadedOf f (totalNumel ps) 0 ps).map (fun p => (mkCpuCopy p, p)) := by
  unfold splitFlat at h
  obtain ⟨h1, h2, h3, h4, _⟩ := splitLoop_ok _ _ _ _ _ _ h
  have hsub := offloadedOf_sublist f (totalNumel ps) 0 ps
  have hnd : (offloadedOf f (totalNumel ps) 0 ps).Nodup :=
    List.Nodup.sublist hsub (wf_nodup ps hwf)
  refine ⟨by simpa using h1, by simpa using h2, ?_, ?_⟩
  · rw [h3]
    exact g2c_eq_map _ hnd
  · rw [h4]
    exact c2g_eq_map _ (shadows_nodup ps _ hsub hwf)

theorem decide_not_eq_true (b : Bool) : decide (¬ (b = true)) = !b := by
  cases b <;> rfl

theorem dictContains_map_self {α β : Type} [DecidableEq α] (f : α → β) (l : List α) (x : α) :
    dictContains (l.map (fun a => (a, f a))) x = decide (x ∈ l) := by
  unfold dictContains
  rw [dictGet?_map_self]
  by_cases h : x ∈ l <;> simp [h]

theorem filterMap_dictGet_map_self (offl l : List Param) :
    l.filterMap (fun p => dictGet? (offl.map (fun a => (a, mkCpuCopy a))) p)
      = (l.filter (fun p => decide (p ∈ offl))).map mkCpuCopy := by
  induction l with
  | nil => rfl
  | cons p rest ih =>
    rw [List.filterMap_cons, dictGet?_map_self, List.filter_cons]
    by_cases h : p ∈ offl
    · rw [if_pos h, if_pos (by simpa using h)]
      simp [ih]
    · rw [if_neg h, if_neg (by simpa using h)]
      exact ih

theorem flatten_regroup_generic (F : Group → List Param) (A : Group → List (String × Int))
    (gs : List Group) :
    ((gs.filterMap (fun g => if F g = [] then none
        else some (⟨F g, A g⟩ : Group))).map Group.params).flatten
      = (gs.map F).flatten := by
  induction gs with
  | nil => rfl
  | cons g rest ih =>
    rw [List.filterMap_cons, List.map_cons, List.flatten_cons]
    by_cases h : F g = []
    · rw [if_pos h, h, List.nil_append, ih]
    · rw [if_neg h]
      simp only [List.map_cons, List.flatten_cons]
      rw [ih]

theorem flatten_map_filterMap (h : Param → Option Param) (gs : List Group) :
    (gs.map (fun g => g.params.filterMap h)).flatten
      = ((gs.map Group.params).flatten).filterMap h := by
  induction gs with
  | nil => rfl
  | cons g rest ih =>
    simp only [List.map_cons, List.flatten_cons, List.filterMap_append, ih]

theorem flatten_map_filter (q : Param → Bool) (gs : List Group) :
    (gs.map (fun g => g.params.filter q)).flatten
      = ((gs.map Group.params).flatten).filter q := by
  induction gs with
  | nil => rfl
  | cons g rest ih =>
    simp only [List.map_cons, List.flatten_cons, List.filter_append, ih]

theorem filter_not_offl_eq_ret (f : ℚ) (total : Nat) (off : Nat) (ps : List Param) (hnd : ps.Nodup) :
    ps.filter (fun p => !(decide (p ∈ offloadedOf f total off ps))) = retainedOf f total off ps := by
  have hperm := offloaded_append_retained_perm f total off ps
  have hndor : (offloadedOf f total off ps ++ retainedOf f total off ps).Nodup :=
    hperm.nodup_iff.mpr hnd
  have hdisj := (List.nodup_append.mp hndor).2.2
  have hcongr : ∀ x ∈ ps, (!(decide (x ∈ offloadedOf f total off ps)))
      = decide (x ∈ retainedOf f total off ps) := by
    intro x hx
    have hor : x ∈ offloadedOf f total off ps ++ retainedOf f total off ps := hperm.symm.subset hx
    rcases List.mem_append.mp hor with h | h
    · have : x ∉ retainedOf f total off ps := hdisj h
      simp [h, this]
    · have : x ∉ offloadedOf f total off ps := fun hc => hdisj hc h
      simp [h, this]
  rw [List.filter_congr hcongr]
  exact filter_mem_eq_of_sublist (retainedOf_sublist f total off ps) hnd

theorem split_ok_sides (input : ParamsInput) (f : ℚ) (out : SplitOut)
    (hwf : WFParams input.allParams) (hok : split input f = .ok out) :
    out.g2c = (offloadedOf f (totalNumel input.allParams) 0 input.allParams).map
        (fun p => (p, mkCpuCopy p))
    ∧ out.c2g = (offloadedOf f (totalNumel input.allParams) 0 input.allParams).map
        (fun p => (mkCpuCopy p, p))
    ∧ out.cpuSide.allParams
        = (offloadedOf f (totalNumel input.allParams) 0 input.allParams).map mkCpuCopy
    ∧ out.gpuSide.allParams
        = retainedOf f (totalNumel input.allParams) 0 input.allParams := by
  cases input with
  | flat ps =>
    simp only [split] at hok
    obtain ⟨acc, hacc, hout⟩ := except_map_ok _ _ _ hok
    obtain ⟨h1, h2, h3, h4⟩ := splitFlat_ok_char ps f acc hwf hacc
    subst hout
    exact ⟨h3, h4, h1, h2⟩
  | grouped gs =>
    by_cases hlen : gs.length = 0
    · have : gs = [] := List.length_eq_zero.mp hlen
      subst this
      simp only [split, if_pos rfl] at hok
      cases hok
      simp [ParamsInput.allParams, offloadedOf, retainedOf]
    · simp only [split, if_neg hlen] at hok
      obtain ⟨acc, hacc, hout⟩ := except_map_ok _ _ _ hok
      have hwf2 : WFParams ((gs.map Group.params).flatten) := hwf
      obtain ⟨h1, h2, h3, h4⟩ := splitFlat_ok_char _ f acc hwf2 hacc
      subst hout
      have hnd := wf_nodup _ hwf2
      have hsub := offloadedOf_sublist
        f (totalNumel ((gs.map Group.params).flatten)) 0 ((gs.map Group.params).flatten)
      refine ⟨h3, h4, ?_, ?_⟩
      · show ((regroupCpu acc.gpu_params_map_cpu_copy gs).map Group.params).flatten = _
        rw [show regroupCpu acc.gpu_params_map_cpu_copy gs
            = gs.filterMap (fun g => if regroupCpuParams acc.gpu_params_map_cpu_copy g.params = []
                then none
                else some ⟨regroupCpuParams acc.gpu_params_map_cpu_copy g.params,
                  stripGroupAttrs g.attrs⟩) from rfl]
        rw [flatten_regroup_generic
          (fun g => regroupCpuParams acc.gpu_params_map_cpu_copy g.params)
          (fun g => stripGroupAttrs g.attrs) gs]
        rw [show (gs.map (fun g => regroupCpuParams acc.gpu_params_map_cpu_copy g.params))
            = gs.map (fun g => g.params.filterMap
                (fun p => dictGet? acc.gpu_params_map_cpu_copy p)) from rfl]
        rw [flatten_map_filterMap, h3, filterMap_dictGet_map_self,
          filter_mem_eq_of_sublist hsub hnd]
        rfl
      · show ((regroupGpu acc.gpu_params_map_cpu_copy gs).map Group.params).flatten = _
        rw [show regroupGpu acc.gpu_params_map_cpu_copy gs
            = gs.filterMap (fun g => if regroupGpuParams acc.gpu_params_map_cpu_copy g.params = []
                then none
                else some ⟨regroupGpuParams acc.gpu_params_map_cpu_copy g.params,
                  stripGroupAttrs g.attrs⟩) from rfl]
        rw [flatten_regroup_generic
          (fun g => regroupGpuParams acc.gpu_params_map_cpu_copy g.params)
          (fun g => stripGroupAttrs g.attrs) gs]
        rw [show (gs.map (fun g => regroupGpuParams acc.gpu_params_map_cpu_copy g.params))
            = gs.map (fun g => g.params.filter
                (fun p => decide (¬ (dictContains acc.gpu_params_map_cpu_copy p = true)))) from rfl]
        rw [flatten_map_filter]
        have hpred : ∀ x ∈ (gs.map Group.params).flatten,
            decide (¬ (dictContains acc.gpu_params_map_cpu_copy x = true))
              = !(decide (x ∈ offloadedOf
                  f (totalNumel ((gs.map Group.params).flatten)) 0
                  ((gs.map Group.params).flatten))) := by
          intro x _
          rw [decide_not_eq_true, h3, dictContains_map_self]
        rw [List.filter_congr hpred, filter_not_offl_eq_ret _ _ _ _ hnd]
        rfl

theorem mem_ret_iff (f : ℚ) (total : Nat) (off : Nat) (ps : List Param) (hnd : ps.Nodup)
    (x : Param) (hx : x ∈ ps) :
    x ∈ retainedOf f total off ps ↔ x ∉ offloadedOf f total off ps := by
  have hperm := offloaded_append_retained_perm f total off ps
  have hndor : (offloadedOf f total off ps ++ retainedOf f total off ps).Nodup :=
    hperm.nodup_iff.mpr hnd
  have hdisj := (List.nodup_append.mp hndor).2.2
  have hor : x ∈ offloadedOf f total off ps ++ retainedOf f total off ps := hperm.symm.subset hx
  constructor
  · intro hr ho
    exact hdisj ho hr
  · intro ho
    rcases List.mem_append.mp hor with h | h
    · exact absurd h ho
    · exact h

theorem sumNumelTake_cons (p : Param) (rest : List Param) (i : Nat) :
    sumNumelTake (p :: rest) (i + 1) = p.numel + sumNumelTake rest i := by
  simp [sumNumelTake, totalNumel]

theorem sumNumelTake_zero (ps : List Param) : sumNumelTake ps 0 = 0 := rfl

theorem mem_offl_iff_get (f : ℚ) (total : Nat) : ∀ (ps : List Param), ps.Nodup →
    ∀ (off : Nat) (i : Nat) (h : i < ps.length),
      (ps.get ⟨i, h⟩ ∈ offloadedOf f total off ps
        ↔ offloadTest f total (off + sumNumelTake ps i + (ps.get ⟨i, h⟩).numel) = true) := by
  intro ps
  induction ps with
  | nil =>
    intro _ off i h
    exact absurd h (Nat.not_lt_zero i)
  | cons p rest ih =>
    intro hnd off i h
    have hnd2 := List.nodup_cons.mp hnd
    cases i with
    | zero =>
      simp only [List.get, sumNumelTake_zero, Nat.add_zero, offloadedOf]
      by_cases hth : offloadTest f total (off + p.numel) = true
      · rw [if_pos hth]
        exact iff_of_true (List.mem_cons_self p _) hth
      · rw [if_neg hth]
        refine iff_of_false ?_ hth
        intro hmem
        exact hnd2.1 ((offloadedOf_sublist f total (off + p.numel) rest).subset hmem)
    | succ i =>
      have hi : i < rest.length := Nat.lt_of_succ_lt_succ h
      have hget : (p :: rest).get ⟨i + 1, h⟩ = rest.get ⟨i, hi⟩ := rfl
      have hne : rest.get ⟨i, hi⟩ ≠ p := by
        intro hc
        exact hnd2.1 (hc ▸ List.get_mem rest i hi)
      rw [hget]
      simp only [offloadedOf]
      have hsum : off + sumNumelTake (p :: rest) (i + 1) + (rest.get ⟨i, hi⟩).numel
          = (off + p.numel) + sumNumelTake rest i + (rest.get ⟨i, hi⟩).numel := by
        rw [sumNumelTake_cons]
        omega
      by_cases hth : offloadTest f total (off + p.numel) = true
      · rw [if_pos hth, hsum]
        rw [List.mem_cons]
        constructor
        · intro hc
          rcases hc with hc | hc
          · exact absurd hc hne
          · exact (ih hnd2.2 (off + p.numel) i hi).mp hc
        · intro hc
          exact Or.inr ((ih hnd2.2 (off + p.numel) i hi).mpr hc)
      · rw [if_neg hth, hsum]
        exact ih hnd2.2 (off + p.numel) i hi

theorem totalNumel_cons (p : Param) (rest : List Param) :
    totalNumel (p :: rest) = p.numel + totalNumel rest := by
  simp [totalNumel]

theorem offloadedOf_nil_of_pos (f : ℚ) (total : Nat)
    (hthr : ((total : Nat) : ℚ) * f ≤ 0) : ∀ (ps : List Param),
    (∀ p ∈ ps, 0 < p.numel) → ∀ (off : Nat), offloadedOf f total off ps = [] := by
  intro ps
  induction ps with
  | nil => intro _ _; rfl
  | cons p rest ih =>
    intro hpos off
    simp only [offloadedOf]
    have hppos : 0 < p.numel := hpos p (List.mem_cons_self p rest)
    have hgt : ¬ offloadTest f total (off + p.numel) = true := by
      intro hc
      rw [offloadTest_iff] at hc
      have h0 : (0 : ℚ) < ((off + p.numel : Nat) : ℚ) := by
        exact_mod_cast Nat.add_pos_right off hppos
      linarith
    rw [if_neg hgt]
    exact ih (fun q hq => hpos q (List.mem_cons_of_mem p hq)) (off + p.numel)

theorem offloadedOf_all (f : ℚ) (total : Nat) (ps : List Param) :
    ∀ (off : Nat), ((off + totalNumel ps : Nat) : ℚ) ≤ ((total : Nat) : ℚ) * f →
      offloadedOf f total off ps = ps ∧ retainedOf f total off ps = [] := by
  induction ps with
  | nil => intro off _; exact ⟨rfl, rfl⟩
  | cons p rest ih =>
    intro off hle
    have hstep : offloadTest f total (off + p.numel) = true := by
      rw [offloadTest_iff]
      refine le_trans ?_ hle
      have : off + p.numel ≤ off + totalNumel (p :: rest) := by
        rw [totalNumel_cons]
        omega
      exact_mod_cast this
    have hrec : ((off + p.numel + totalNumel rest : Nat) : ℚ) ≤ ((total : Nat) : ℚ) * f := by
      have : off + p.numel + totalNumel rest = off + totalNumel (p :: rest) := by
        rw [totalNumel_cons]
        omega
      rw [this]
      exact hle
    obtain ⟨h1, h2⟩ := ih (off + p.numel) hrec
    simp only [offloadedOf, retainedOf]
    rw [if_pos hstep, if_pos hstep, h1, h2]
    exact ⟨rfl, rfl⟩

theorem dictContains_foldl_dictSet {σ : Type} (key val : σ → Param) (l : List σ)
    (d : List (Param × Param)) (x : Param) :
    dictContains (l.foldl (fun d s => dictSet d (key s) (val s)) d) x
      = (dictContains d x || decide (x ∈ l.map key)) := by
  induction l generalizing d with
  | nil => simp
  | cons a rest ih =>
    rw [List.foldl_cons, ih, dictContains_dictSet, List.map_cons]
    have hmc : decide (x ∈ key a :: rest.map key)
        = (decide (key a = x) || decide (x ∈ rest.map key)) := by
      by_cases h1 : key a = x
      · subst h1
        simp [List.mem_cons]
      · have h1x : ¬ (x = key a) := fun hc => h1 hc.symm
        by_cases h2 : x ∈ rest.map key <;> simp [List.mem_cons, h1x, h1, h2]
    rw [hmc]
    generalize decide (key a = x) = b1
    generalize dictContains d x = b2
    generalize decide (x ∈ rest.map key) = b3
    cases b1 <;> cases b2 <;> cases b3 <;> rfl

theorem dictContains_foldl_dictSet_self (l : List Param) (d : List (Param × Param))
    (x : Param) :
    dictContains (l.foldl (fun d p => dictSet d p (mkCpuCopy p)) d) x
      = (dictContains d x || decide (x ∈ l)) := by
  have h := dictContains_foldl_dictSet (fun p => p) mkCpuCopy l d x
  simpa using h

theorem split_error (input : ParamsInput) (f : ℚ) (e : PyError)
    (h : split input f = .error e) : e = .assertParamNotCuda := by
  cases input with
  | flat ps =>
    simp only [split] at h
    cases hs : splitFlat ps f with
    | error e2 =>
      rw [hs] at h
      simp only [Except.map] at h
      cases h
      unfold splitFlat at hs
      exact splitLoop_error _ _ _ _ _ _ hs
    | ok acc =>
      rw [hs] at h
      simp [Except.map] at h
  | grouped gs =>
    by_cases hlen : gs.length = 0
    · simp [split, hlen] at h
    · simp only [split, if_neg hlen] at h
      cases hs : splitFlat ((gs.map Group.params).flatten) f with
      | error e2 =>
        rw [hs] at h
        simp only [Except.map] at h
        cases h
        unfold splitFlat at hs
        exact splitLoop_error _ _ _ _ _ _ hs
      | ok acc =>
        rw [hs] at h
        simp [Except.map] at h

theorem initSubOptimizers_error (cfg : Config) (input : ParamsInput) (env : Env)
    (e : PyError) (h : initSubOptimizers cfg input env = .error e) :
    e = .assertParamNotCuda := by
  unfold initSubOptimizers at h
  cases hs : split input cfg.offload_fraction with
  | error e2 =>
    rw [hs] at h
    simp only [Except.bind] at h
    cases h
    exact split_error _ _ _ hs
  | ok so =>
    rw [hs] at h
    simp only [Except.bind] at h
    cases h

theorem map_fst_map_pair {α β : Type} (f : α → β) (l : List α) :
    ((l.map (fun a => (a, f a))).map Prod.fst) = l := by
  induction l with
  | nil => rfl
  | cons a r ih => simp [ih]

theorem map_snd_map_pair {α β : Type} (f : α → β) (l : List α) :
    ((l.map (fun a => (a, f a))).map Prod.snd) = l.map f := by
  induction l with
  | nil => rfl
  | cons a r ih => simp [ih]

theorem map_fst_map_pair_rev {α β : Type} (f : α → β) (l : List α) :
    ((l.map (fun a => (f a, a))).map Prod.fst) = l.map f := by
  induction l with
  | nil => rfl
  | cons a r ih => simp [ih]

theorem map_snd_map_pair_rev {α β : Type} (f : α → β) (l : List α) :
    ((l.map (fun a => (f a, a))).map Prod.snd) = l := by
  induction l with
  | nil => rfl
  | cons a r ih => simp [ih]

/-! Claim theorems. -/

/-- C1: for every input parameter list (flat or grouped) and every offload
fraction, a successful partition assigns every input parameter to exactly
one of the host set (represented by its shadow copy) or the device set:
the offloaded originals (keys of the identity map) together with the device
side are a permutation of the input with no duplicates, and the host side
is exactly the list of their shadow copies, so no parameter is duplicated
or dropped — for grouped input the union of the partitioned groups equals
the input set. -/
theorem split_assigns_each_param_exactly_once (input : ParamsInput) (f : ℚ) (out : SplitOut)
    (hwf : WFParams input.allParams) (hok : split input f = .ok out) :
    ((out.g2c.map Prod.fst) ++ out.gpuSide.allParams).Perm input.allParams
    ∧ ((out.g2c.map Prod.fst) ++ out.gpuSide.allParams).Nodup
    ∧ out.cpuSide.allParams = out.g2c.map Prod.snd := by
  obtain ⟨h1, h2, h3, h4⟩ := split_ok_sides input f out hwf hok
  have hfst : out.g2c.map Prod.fst
      = offloadedOf f (totalNumel input.allParams) 0 input.allParams := by
    rw [h1]
    exact map_fst_map_pair mkCpuCopy _
  have hperm := offloaded_append_retained_perm f (totalNumel input.allParams) 0
    input.allParams
  refine ⟨?_, ?_, ?_⟩
  · rw [hfst, h4]
    exact hperm
  · rw [hfst, h4]
    exact hperm.nodup_iff.mpr (wf_nodup _ hwf)
  · rw [h3, h1]
    exact (map_snd_map_pair mkCpuCopy _).symm

/-- Closed instance of C1 at a one-parameter input with full offload. -/
theorem split_assigns_each_param_exactly_once_witness :
    WFParams (ParamsInput.allParams (.flat [exParam]))
    ∧ split (.flat [exParam]) ratOne
        = .ok ⟨.flat [exShadow], .flat [], [(exParam, exShadow)], [(exShadow, exParam)]⟩
    ∧ (((([(exParam, exShadow)] : List (Param × Param)).map Prod.fst)
          ++ (ParamsInput.flat []).allParams).Perm (ParamsInput.allParams (.flat [exParam]))
        ∧ ((([(exParam, exShadow)] : List (Param × Param)).map Prod.fst)
          ++ (ParamsInput.flat []).allParams).Nodup
        ∧ (ParamsInput.flat [exShadow]).allParams
            = ([(exParam, exShadow)] : List (Param × Param)).map Prod.snd) := by
  refine ⟨by decide, by decide, ?_⟩
  exact split_assigns_each_param_exactly_once (.flat [exParam]) ratOne
    ⟨.flat [exShadow], .flat [], [(exParam, exShadow)], [(exShadow, exParam)]⟩
    (by decide) (by decide)

/-- C3: the two identity maps a successful partition builds are mutual
inverses over the offloaded subset — following the device-to-host entry of
any offloaded parameter with the host-to-device map returns that parameter,
and conversely — so they form a bijection between offloaded parameters and
their shadows. -/
theorem identity_maps_are_mutual_inverses (input : ParamsInput) (f : ℚ) (out : SplitOut)
    (hwf : WFParams input.allParams) (hok : split input f = .ok out) :
    (∀ p c, dictGet? out.g2c p = some c → dictGet? out.c2g c = some p)
    ∧ (∀ c p, dictGet? out.c2g c = some p → dictGet? out.g2c p = some c) := by
  obtain ⟨h1, h2, _, _⟩ := split_ok_sides input f out hwf hok
  have hsub := offloadedOf_sublist f (totalNumel input.allParams) 0 input.allParams
  constructor
  · intro p c hpc
    rw [h1, dictGet?_map_self] at hpc
    by_cases hmem : p ∈ offloadedOf f (totalNumel input.allParams) 0 input.allParams
    · rw [if_pos hmem] at hpc
      have hc : mkCpuCopy p = c := by injection hpc
      subst hc
      rw [h2]
      exact dictGet?_map_pair_self mkCpuCopy _ (mkCpuCopy_inj_on _ _ hsub hwf) p hmem
    · rw [if_neg hmem] at hpc
      cases hpc
  · intro c p hcp
    rw [h2] at hcp
    obtain ⟨hm, hk⟩ := dictGet?_map_pair mkCpuCopy _ c p hcp
    rw [h1, dictGet?_map_self, if_pos hm, hk]

/-- Closed instance of C3: the round trip through both maps at a concrete
offloaded parameter. -/
theorem identity_maps_are_mutual_inverses_witness :
    WFParams (ParamsInput.allParams (.flat [exParam]))
    ∧ dictGet? [(exShadow, exParam)] exShadow = some exParam :=
  ⟨by decide,
    (identity_maps_are_mutual_inverses (.flat [exParam]) ratOne
        ⟨.flat [exShadow], .flat [], [(exParam, exShadow)], [(exShadow, exParam)]⟩
        (by decide) (by decide)).1 exParam exShadow (by decide)⟩

/-- C2: the partitioner walks parameters in input order keeping a running
offloaded count; a parameter is offloaded (that is, it becomes a key of the
identity map) exactly when the prefix sum of the element counts before it
plus its own count stays within `total * offload_fraction`, and lands in
the device list exactly otherwise; in particular on numels
[100, 50, 200, 50] with fraction 3/10 (threshold 120) the host set is
exactly the first parameter and the device set the other three. -/
theorem split_follows_prefix_sum_rule :
    (∀ (ps : List Param) (f : ℚ) (acc : SplitAcc), WFParams ps → splitFlat ps f = .ok acc →
      ∀ (i : Nat) (h : i < ps.length),
        ((ps.get ⟨i, h⟩ ∈ acc.gpu_params_map_cpu_copy.map Prod.fst)
          ↔ ((sumNumelTake ps i + (ps.get ⟨i, h⟩).numel : Nat) : ℚ) ≤ (totalNumel ps : ℚ) * f)
        ∧ ((ps.get ⟨i, h⟩ ∈ acc.gpu_params)
          ↔ ¬ ((sumNumelTake ps i + (ps.get ⟨i, h⟩).numel : Nat) : ℚ)
              ≤ (totalNumel ps : ℚ) * f))
    ∧ ratScenario = 3 / 10
    ∧ (splitFlat scenarioParams ratScenario).map
        (fun a => (a.gpu_params_map_cpu_copy.map Prod.fst, a.gpu_params))
      = .ok ([⟨1, 100, true, false⟩],
          [⟨2, 50, true, false⟩, ⟨3, 200, true, false⟩, ⟨4, 50, true, false⟩]) := by
  refine ⟨?_, ?_, ?_⟩
  · intro ps f acc hwf hok i h
    obtain ⟨_, h2, h3, _⟩ := splitFlat_ok_char ps f acc hwf hok
    have hnd := wf_nodup ps hwf
    have hfst : acc.gpu_params_map_cpu_copy.map Prod.fst
        = offloadedOf f (totalNumel ps) 0 ps := by
      rw [h3]
      exact map_fst_map_pair mkCpuCopy _
    have hmem := mem_offl_iff_get f (totalNumel ps) ps hnd 0 i h
    rw [Nat.zero_add, offloadTest_iff] at hmem
    constructor
    · rw [hfst]
      exact hmem
    · rw [h2]
      rw [mem_ret_iff f (totalNumel ps) 0 ps hnd _ (List.get_mem ps i h)]
      rw [hmem]
  · unfold ratScenario
    rw [Rat.mk'_eq_divInt, Rat.divInt_eq_div]
    norm_num
  · decide

/-- Closed instance of C2 at the spec scenario: the first parameter is
offloaded because `100 <= 120`. -/
theorem split_follows_prefix_sum_rule_witness :
    WFParams scenarioParams
    ∧ (⟨1, 100, true, false⟩ : Param)
        ∈ (([(⟨1, 100, true, false⟩, mkCpuCopy ⟨1, 100, true, false⟩)] :
            List (Param × Param)).map Prod.fst) := by
  refine ⟨by decide, ?_⟩
  have happ := (split_follows_prefix_sum_rule.1 scenarioParams ratScenario
    ⟨[mkCpuCopy ⟨1, 100, true, false⟩],
      [⟨2, 50, true, false⟩, ⟨3, 200, true, false⟩, ⟨4, 50, true, false⟩],
      [(⟨1, 100, true, false⟩, mkCpuCopy ⟨1, 100, true, false⟩)],
      [(mkCpuCopy ⟨1, 100, true, false⟩, ⟨1, 100, true, false⟩)]⟩
    (by decide) (by decide) 0 (by decide)).1
  exact happ.mpr ((offloadTest_iff ratScenario (totalNumel scenarioParams) _).mp (by decide))

theorem regroupCpuParams_nil (ps : List Param) : regroupCpuParams [] ps = [] := by
  induction ps with
  | nil => rfl
  | cons p rest ih =>
    simp only [regroupCpuParams, List.filterMap_cons, dictGet?] at *
    exact ih

theorem regroupCpu_nil (gs : List Group) : regroupCpu [] gs = [] := by
  induction gs with
  | nil => rfl
  | cons g rest ih =>
    simp only [regroupCpu, List.filterMap_cons, regroupCpuParams_nil] at *
    exact ih

theorem regroupGpuParams_all (g2c : List (Param × Param)) (ps : List Param)
    (h : ∀ p ∈ ps, dictContains g2c p = true) : regroupGpuParams g2c ps = [] := by
  unfold regroupGpuParams
  rw [List.filter_eq_nil_iff]
  intro p hp
  simp [h p hp]

theorem regroupGpu_empty (g2c : List (Param × Param)) (gs : List Group)
    (h : ∀ p ∈ (gs.map Group.params).flatten, dictContains g2c p = true) :
    regroupGpu g2c gs = [] := by
  induction gs with
  | nil => rfl
  | cons g rest ih =>
    simp only [regroupGpu, List.filterMap_cons]
    have hg : regroupGpuParams g2c g.params = [] := by
      apply regroupGpuParams_all
      intro p hp
      apply h
      exact List.mem_flatten.mpr ⟨g.params, List.mem_map_of_mem Group.params
        (List.mem_cons_self g rest), hp⟩
    rw [hg]
    simp only [if_pos rfl]
    apply ih
    intro p hp
    apply h
    rcases List.mem_flatten.mp hp with ⟨l, hl, hpl⟩
    rcases List.mem_map.mp hl with ⟨g2, hg2, rfl⟩
    exact List.mem_flatten.mpr ⟨g2.params, List.mem_map_of_mem Group.params
      (List.mem_cons_of_mem g hg2), hpl⟩

/-- C7 counterexample: a device-resident zero-element parameter is still
offloaded at `offload_fraction = 0` because `0 + 0 <= 0` holds, so the
host set is not empty. -/
theorem zero_fraction_zero_numel_counterexample :
    ratZero = 0
    ∧ (split (.flat [exZeroNumel]) ratZero).map (fun o => o.cpuSide.allParams)
        = .ok [mkCpuCopy exZeroNumel] := by
  constructor
  · unfold ratZero
    rw [Rat.mk'_eq_divInt, Rat.divInt_eq_div]
    norm_num
  · decide

/-- C7 (amended): for every input whose parameters all have a positive
element count, `offload_fraction = 0` yields an empty host set with empty
identity maps (a zero-element parameter would still be offloaded because
the `<=` bound is inclusive); for every input whose parameters are all
device-resident, `offload_fraction = 1` yields an empty device set. -/
theorem split_extreme_fractions (input : ParamsInput) :
    ((∀ p ∈ input.allParams, 0 < p.numel) →
      ∃ out, split input 0 = .ok out
        ∧ out.cpuSide.allParams = [] ∧ out.g2c = [] ∧ out.c2g = [])
    ∧ ((∀ p ∈ input.allParams, p.isCuda = true) →
      ∃ out, split input 1 = .ok out ∧ out.gpuSide.allParams = []) := by
  constructor
  · intro hpos
    have hoff : ∀ (off : Nat),
        offloadedOf 0 (totalNumel input.allParams) off input.allParams = [] :=
      offloadedOf_nil_of_pos 0 (totalNumel input.allParams) (by norm_num)
        input.allParams hpos
    obtain ⟨acc, hacc⟩ := splitLoop_isCuda_ok 0 (totalNumel input.allParams)
      input.allParams 0 SplitAcc.empty (by rw [hoff]; intro p hp; cases hp)
    obtain ⟨h1, h2, h3, h4, _⟩ := splitLoop_ok _ _ _ _ _ _ hacc
    rw [hoff] at h1 h3 h4
    simp only [SplitAcc.empty, List.map_nil, List.append_nil, List.foldl_nil] at h1 h3 h4
    cases input with
    | flat ps =>
      refine ⟨⟨.flat acc.cpu_params, .flat acc.gpu_params,
        acc.gpu_params_map_cpu_copy, acc.cpu_copys_map_gpu_param⟩, ?_, ?_, h3, h4⟩
      · show (splitFlat ps 0).map _ = _
        unfold splitFlat
        simp only [ParamsInput.allParams] at hacc
        rw [hacc]
        rfl
      · exact h1
    | grouped gs =>
      by_cases hlen : gs.length = 0
      · exact ⟨⟨.flat [], .flat [], [], []⟩, by simp [split, hlen], rfl, rfl, rfl⟩
      · refine ⟨⟨.grouped (regroupCpu acc.gpu_params_map_cpu_copy gs),
          .grouped (regroupGpu acc.gpu_params_map_cpu_copy gs),
          acc.gpu_params_map_cpu_copy, acc.cpu_copys_map_gpu_param⟩, ?_, ?_, h3, h4⟩
        · show split (.grouped gs) 0 = _
          simp only [split, if_neg hlen]
          show (splitFlat ((gs.map Group.params).flatten) 0).map _ = _
          unfold splitFlat
          simp only [ParamsInput.allParams] at hacc
          rw [hacc]
          rfl
        · show ((regroupCpu acc.gpu_params_map_cpu_copy gs).map Group.params).flatten = []
          rw [h3, regroupCpu_nil]
          rfl
  · intro hcuda
    have htot : ((0 + totalNumel input.allParams : Nat) : ℚ)
        ≤ ((totalNumel input.allParams : Nat) : ℚ) * 1 := by
      push_cast
      norm_num
    obtain ⟨hoff, hret⟩ := offloadedOf_all 1 (totalNumel input.allParams)
      input.allParams 0 htot
    obtain ⟨acc, hacc⟩ := splitLoop_isCuda_ok 1 (totalNumel input.allParams)
      input.allParams 0 SplitAcc.empty (by rw [hoff]; exact hcuda)
    obtain ⟨h1, h2, h3, h4, _⟩ := splitLoop_ok _ _ _ _ _ _ hacc
    rw [hret] at h2
    simp only [SplitAcc.empty, List.append_nil] at h2
    cases input with
    | flat ps =>
      refine ⟨⟨.flat acc.cpu_params, .flat acc.gpu_params,
        acc.gpu_params_map_cpu_copy, acc.cpu_copys_map_gpu_param⟩, ?_, h2⟩
      show (splitFlat ps 1).map _ = _
      unfold splitFlat
      simp only [ParamsInput.allParams] at hacc
      rw [hacc]
      rfl
    | grouped gs =>
      by_cases hlen : gs.length = 0
      · exact ⟨⟨.flat [], .flat [], [], []⟩, by simp [split, hlen], rfl⟩
      · refine ⟨⟨.grouped (regroupCpu acc.gpu_params_map_cpu_copy gs),
          .grouped (regroupGpu acc.gpu_params_map_cpu_copy gs),
          acc.gpu_params_map_cpu_copy, acc.cpu_copys_map_gpu_param⟩, ?_, ?_⟩
        · show split (.grouped gs) 1 = _
          simp only [split, if_neg hlen]
          show (splitFlat ((gs.map Group.params).flatten) 1).map _ = _
          unfold splitFlat
          simp only [ParamsInput.allParams] at hacc
          rw [hacc]
          rfl
        · show ((regroupGpu acc.gpu_params_map_cpu_copy gs).map Group.params).flatten = []
          rw [regroupGpu_empty]
          · rfl
          · intro p hp
            have h3e : acc.gpu_params_map_cpu_copy
                = (offloadedOf 1 (totalNumel (ParamsInput.allParams (.grouped gs))) 0
                    (ParamsInput.allParams (.grouped gs))).foldl
                    (fun d p => dictSet d p (mkCpuCopy p)) [] := h3
            rw [h3e, dictContains_foldl_dictSet_self, hoff]
            have hmem : p ∈ ParamsInput.allParams (.grouped gs) := hp
            simp [dictContains_nil, hmem]

/-- Closed instance of C7 (amended) at a one-parameter CUDA input. -/
theorem split_extreme_fractions_witness :
    (∀ p ∈ (ParamsInput.flat [exParam]).allParams, 0 < p.numel)
    ∧ (∀ p ∈ (ParamsInput.flat [exParam]).allParams, p.isCuda = true)
    ∧ (∃ out, split (.flat [exParam]) 0 = .ok out
        ∧ out.cpuSide.allParams = [] ∧ out.g2c = [] ∧ out.c2g = [])
    ∧ (∃ out, split (.flat [exParam]) 1 = .ok out ∧ out.gpuSide.allParams = []) :=
  ⟨by decide, by decide,
    (split_extreme_fractions (.flat [exParam])).1 (by decide),
    (split_extreme_fractions (.flat [exParam])).2 (by decide)⟩

/-- C4: constructing with `overlap = true` and `multi_streams = false`
raises the configuration assertion — the check runs before
`_init_sub_optimizers`, so no sub-optimizer is created — and no other
combination of the two flags ever produces this error (construction can
only fail otherwise with the non-CUDA-parameter assertion from the
partitioner). -/
theorem overlap_without_multi_streams_fails (cfg : Config) (input : ParamsInput) (env : Env) :
    (cfg.overlap = true → cfg.multi_streams = false →
      hdoInit cfg input env = .error .assertOverlapNeedsMultiStreams)
    ∧ ((cfg.overlap = false ∨ cfg.multi_streams = true) →
      ∀ e, hdoInit cfg input env = .error e → e ≠ .assertOverlapNeedsMultiStreams) := by
  constructor
  · intro ho hm
    simp [hdoInit, ho, hm]
  · intro hcomb e he
    have hcond : ¬ (cfg.overlap = true ∧ ¬ (cfg.multi_streams = true)) := by
      rcases hcomb with h | h
      · intro hc
        rw [h] at hc
        exact absurd hc.1 (by simp)
      · intro hc
        exact hc.2 h
    unfold hdoInit at he
    rw [if_neg hcond] at he
    cases hi : initSubOptimizers cfg input env with
    | error e2 =>
      rw [hi] at he
      simp only [Bind.bind, Except.bind] at he
      have hee : e2 = e := Except.error.inj he
      rw [← hee, initSubOptimizers_error cfg input env e2 hi]
      decide
    | ok pr =>
      rw [hi] at he
      simp only [Bind.bind, Except.bind] at he
      exact Except.noConfusion he

/-- Closed instance of C4: the failing flag combination at a concrete
input, and the only other construction error being the non-CUDA assertion,
which is a different error. -/
theorem overlap_without_multi_streams_fails_witness :
    hdoInit ⟨ratOne, true, false⟩ (.flat [exParam]) exEnv
        = .error .assertOverlapNeedsMultiStreams
    ∧ PyError.assertParamNotCuda ≠ PyError.assertOverlapNeedsMultiStreams := by
  constructor
  · exact (overlap_without_multi_streams_fails ⟨ratOne, true, false⟩
      (.flat [exParam]) exEnv).1 rfl rfl
  · exact (overlap_without_multi_streams_fails ⟨ratOne, false, true⟩
      (.flat [⟨1, 2, false, false⟩]) exEnv).2 (Or.inl rfl)
      PyError.assertParamNotCuda rfl

/-- C5 (code bug): gradient staging for a host shadow whose device
parameter currently has no gradient raises instead of marking the shadow
as not requiring gradient accumulation. With no buffer allocated yet,
`torch.empty(gpu_param.grad.shape, ...)` dereferences `None`; with a
buffer already allocated, `hasattr(gpu_param, "grad")` still holds (a
tensor's `grad` attribute always exists and is `None` when absent), so
`buffer.copy_(None)` raises; the `requires_grad = False` branch is
unreachable. -/
theorem staging_raises_on_absent_gradient :
    stageOne [(exShadow, exParam)] (fun _ => none) exEnv exShadow
        = .error .attributeNoneGradShape
    ∧ stageOne [(exShadow, exParam)] (fun q => if q = exShadow then some 5 else none)
        exEnv exShadow = .error .typeErrorCopyFromNoneGrad := by
  constructor <;> rfl

theorem contains_entry_fold (c2g : List (Param × Param)) (entries : List (Param × Nat))
    (ns : List (Param × Nat)) (x : Param) :
    dictContains (entries.foldl
        (fun ns kv => dictSet ns (dictGetD c2g kv.1 kv.1) kv.2) ns) x = true
      ↔ (dictContains ns x = true ∨ ∃ kv ∈ entries, dictGetD c2g kv.1 kv.1 = x) := by
  induction entries generalizing ns with
  | nil => simp
  | cons kv rest ih =>
    rw [List.foldl_cons, ih]
    rw [dictContains_dictSet]
    constructor
    · intro hc
      rcases hc with hc | hc
      · rcases Bool.or_eq_true_iff.mp hc with hc | hc
        · exact Or.inr ⟨kv, List.mem_cons_self kv rest, of_decide_eq_true hc⟩
        · exact Or.inl hc
      · rcases hc with ⟨kv2, hkv2, hval⟩
        exact Or.inr ⟨kv2, List.mem_cons_of_mem kv hkv2, hval⟩
    · intro hc
      rcases hc with hc | hc
      · exact Or.inl (Bool.or_eq_true_iff.mpr (Or.inr hc))
      · rcases hc with ⟨kv2, hkv2, hval⟩
        rcases List.mem_cons.mp hkv2 with rfl | hkv2
        · exact Or.inl (Bool.or_eq_true_iff.mpr (Or.inl (decide_eq_true hval)))
        · exact Or.inr ⟨kv2, hkv2, hval⟩

theorem contains_nested_fold (c2g : List (Param × Param)) (opts : List SubOptimizer)
    (ns : List (Param × Nat)) (x : Param) :
    dictContains (opts.foldl (fun ns opt => opt.state.foldl
        (fun ns kv => dictSet ns (dictGetD c2g kv.1 kv.1) kv.2) ns) ns) x = true
      ↔ (dictContains ns x = true
          ∨ ∃ o ∈ opts, ∃ kv ∈ o.state, dictGetD c2g kv.1 kv.1 = x) := by
  induction opts generalizing ns with
  | nil => simp
  | cons o rest ih =>
    rw [List.foldl_cons, ih, contains_entry_fold]
    constructor
    · intro hc
      rcases hc with (hc | hc) | hc
      · exact Or.inl hc
      · rcases hc with ⟨kv, hkv, hval⟩
        exact Or.inr ⟨o, List.mem_cons_self o rest, kv, hkv, hval⟩
      · rcases hc with ⟨o2, ho2, kv, hkv, hval⟩
        exact Or.inr ⟨o2, List.mem_cons_of_mem o ho2, kv, hkv, hval⟩
    · intro hc
      rcases hc with hc | hc
      · exact Or.inl (Or.inl hc)
      · rcases hc with ⟨o2, ho2, kv, hkv, hval⟩
        rcases List.mem_cons.mp ho2 with rfl | ho2
        · exact Or.inl (Or.inr ⟨kv, hkv, hval⟩)
        · exact Or.inr ⟨o2, ho2, kv, hkv, hval⟩

/-- C10: the post-step sub-to-unified state sync rebuilds the unified
state dict from scratch: afterwards a parameter has an entry exactly when
some sub-optimizer currently holds state for a parameter whose
device-identity remap is that parameter, and the result is the same as if
the previous unified state had been empty — any stale entry for an
untracked parameter is removed, not preserved. -/
theorem state_sync_rebuilds_from_scratch (s : Sys) (x : Param) :
    (dictContains (syncSubOptimizersStateToHdo s).hdo.hdo_state x = true
      ↔ ∃ o ∈ subOptimizersList s.hdo, ∃ kv ∈ o.state, dictGetD s.hdo.c2g kv.1 kv.1 = x)
    ∧ (syncSubOptimizersStateToHdo s).hdo.hdo_state
        = (syncSubOptimizersStateToHdo ⟨{ s.hdo with hdo_state := [] }, s.env⟩).hdo.hdo_state := by
  constructor
  · show dictContains ((subOptimizersList s.hdo).foldl _ []) x = true ↔ _
    rw [contains_nested_fold]
    simp [dictContains_nil]
  · rfl

theorem buildCpuLoop_opts (pas : List (Param × List (String × Int))) (b : CpuBuild) :
    (buildCpuLoop pas b).cpu_optimizers
      = b.cpu_optimizers
          ++ pas.map (fun pa => mkSubOptimizerFromInput (.grouped [⟨[pa.1], pa.2⟩])) := by
  induction pas generalizing b with
  | nil => simp [buildCpuLoop]
  | cons pa rest ih =>
    show (buildCpuLoop rest _).cpu_optimizers = _
    rw [ih]
    simp

theorem buildCpuLoop_mapping_preserved (pas : List (Param × List (String × Int)))
    (b : CpuBuild) (x : Param) (hx : x ∉ pas.map Prod.fst) :
    dictGet? (buildCpuLoop pas b).param_optimizer_mapping x
      = dictGet? b.param_optimizer_mapping x := by
  induction pas generalizing b with
  | nil => rfl
  | cons pa rest ih =>
    rw [List.map_cons] at hx
    have hxr : x ∉ rest.map Prod.fst := fun hc => hx (List.mem_cons_of_mem _ hc)
    have hne : ¬ pa.1 = x := by
      intro hc
      rw [← hc] at hx
      exact hx (List.mem_cons_self _ _)
    show dictGet? (buildCpuLoop rest _).param_optimizer_mapping x = _
    rw [ih _ hxr]
    show dictGet? (dictSet b.param_optimizer_mapping pa.1 b.cpu_optimizers.length) x = _
    rw [dictGet?_dictSet, if_neg hne]

theorem buildCpuLoop_lookup (pas : List (Param × List (String × Int))) :
    ∀ (b : CpuBuild), (pas.map Prod.fst).Nodup →
      ∀ (i : Nat) (h : i < pas.length),
        dictGet? (buildCpuLoop pas b).param_optimizer_mapping (pas.get ⟨i, h⟩).1
          = some (b.cpu_optimizers.length + i) := by
  induction pas with
  | nil =>
    intro b _ i h
    exact absurd h (Nat.not_lt_zero i)
  | cons pa rest ih =>
    intro b hnd i h
    rw [List.map_cons] at hnd
    have hnd2 := List.nodup_cons.mp hnd
    cases i with
    | zero =>
      show dictGet? (buildCpuLoop rest _).param_optimizer_mapping pa.1 = _
      rw [buildCpuLoop_mapping_preserved rest _ pa.1 hnd2.1]
      show dictGet? (dictSet b.param_optimizer_mapping pa.1 b.cpu_optimizers.length) pa.1 = _
      rw [dictGet?_dictSet, if_pos rfl, Nat.add_zero]
    | succ i =>
      have hi : i < rest.length := Nat.lt_of_succ_lt_succ h
      have hstep := ih
        ⟨b.cpu_optimizers ++ [mkSubOptimizerFromInput (.grouped [⟨[pa.1], pa.2⟩])],
          dictSet b.param_optimizer_mapping pa.1 b.cpu_optimizers.length,
          b.n_params ++ [1]⟩ hnd2.2 i hi
      have hlen2 : (b.cpu_optimizers
          ++ [mkSubOptimizerFromInput (.grouped [⟨[pa.1], pa.2⟩])]).length + i
            = b.cpu_optimizers.length + (i + 1) := by
        rw [List.length_append]
        simp only [List.length_cons, List.length_nil]
        omega
      exact hstep.trans (congrArg some hlen2)

theorem flatPairs_fst (input : ParamsInput) : (flatPairs input).map Prod.fst = input.allParams := by
  cases input with
  | flat ps =>
    exact map_fst_map_pair (fun _ => []) ps
  | grouped gs =>
    show ((gs.map (fun g => g.params.map (fun p => (p, g.attrs)))).flatten).map Prod.fst
      = (gs.map Group.params).flatten
    induction gs with
    | nil => rfl
    | cons g rest ih =>
      simp only [List.map_cons, List.flatten_cons, List.map_append, ih]
      rw [map_fst_map_pair (fun _ => g.attrs) g.params]

theorem buildCpuOptimizerList_eq (input : ParamsInput) :
    buildCpuOptimizerList input = buildCpuLoop (flatPairs input) ⟨[], [], []⟩ := by
  cases input <;> rfl

theorem hdoInit_ok_parts (cfg : Config) (input : ParamsInput) (env : Env) (h : HDO) (e : Env)
    (hcond : ¬ (cfg.overlap = true ∧ ¬ (cfg.multi_streams = true)))
    (hinit : hdoInit cfg input env = .ok (h, e)) :
    ∀ out, split input cfg.offload_fraction = .ok out →
      (h.cpu_optimizers = (if cfg.overlap ∧ 0 < out.cpuSide.pyLen
          then (buildCpuOptimizerList out.cpuSide).cpu_optimizers
          else if 0 < out.cpuSide.pyLen then [mkSubOptimizerFromInput out.cpuSide] else [])
        ∧ h.routing = (if cfg.overlap ∧ 0 < out.cpuSide.pyLen
          then .table (buildCpuOptimizerList out.cpuSide).param_optimizer_mapping
          else .const0)) := by
  intro out hout
  unfold hdoInit at hinit
  rw [if_neg hcond] at hinit
  unfold initSubOptimizers at hinit
  rw [hout] at hinit
  simp only [Bind.bind, Except.bind] at hinit
  by_cases hov : cfg.overlap ∧ 0 < out.cpuSide.pyLen
  · rw [if_pos hov] at hinit ⊢
    rw [if_pos hov]
    have hpair := Except.ok.inj hinit
    have hh : h = _ := congrArg Prod.fst hpair.symm
    rw [hh]
    exact ⟨rfl, rfl⟩
  · rw [if_neg hov] at hinit ⊢
    rw [if_neg hov]
    have hpair := Except.ok.inj hinit
    have hh : h = _ := congrArg Prod.fst hpair.symm
    rw [hh]
    exact ⟨rfl, rfl⟩

/-- C6: with overlap on, `build_cpu_optimizer_list` creates exactly one
host sub-optimizer per host parameter — each over a single-parameter group
carrying that parameter's original group attrs — and the routing dict maps
the i-th host parameter to index i (all distinct); `_init_sub_optimizers`
installs exactly these when overlap is requested and the host side is
nonempty. With overlap off, at most one host sub-optimizer is created,
spanning all host groups, and the routing table maps every parameter to
index 0. -/
theorem overlap_builds_one_optimizer_per_param :
    (∀ side : ParamsInput,
      (buildCpuOptimizerList side).cpu_optimizers
          = (flatPairs side).map (fun pa => mkSubOptimizerFromInput (.grouped [⟨[pa.1], pa.2⟩]))
      ∧ (buildCpuOptimizerList side).cpu_optimizers.length = side.allParams.length
      ∧ (side.allParams.Nodup →
          ∀ (i : Nat) (h : i < side.allParams.length),
            dictGet? (buildCpuOptimizerList side).param_optimizer_mapping
              (side.allParams.get ⟨i, h⟩) = some i))
    ∧ (∀ (cfg : Config) (input : ParamsInput) (env : Env) (h : HDO) (e : Env)
        (out : SplitOut),
        cfg.overlap = true → cfg.multi_streams = true →
        hdoInit cfg input env = .ok (h, e) →
        split input cfg.offload_fraction = .ok out → 0 < out.cpuSide.pyLen →
        h.cpu_optimizers = (buildCpuOptimizerList out.cpuSide).cpu_optimizers
        ∧ h.routing = .table (buildCpuOptimizerList out.cpuSide).param_optimizer_mapping)
    ∧ (∀ (cfg : Config) (input : ParamsInput) (env : Env) (h : HDO) (e : Env),
        cfg.overlap = false →
        hdoInit cfg input env = .ok (h, e) →
        h.cpu_optimizers.length ≤ 1 ∧ h.routing = .const0
        ∧ (∀ p, h.routing.lookup? p = some 0)
        ∧ ∀ out, split input cfg.offload_fraction = .ok out → 0 < out.cpuSide.pyLen →
            h.cpu_optimizers = [mkSubOptimizerFromInput out.cpuSide]) := by
  refine ⟨?_, ?_, ?_⟩
  · intro side
    rw [buildCpuOptimizerList_eq]
    refine ⟨by rw [buildCpuLoop_opts]; rfl, ?_, ?_⟩
    · rw [buildCpuLoop_opts]
      simp only [List.nil_append, List.length_map]
      rw [← flatPairs_fst side, List.length_map]
    · intro hnd i hi
      have hlen : side.allParams.length = (flatPairs side).length := by
        rw [← flatPairs_fst side, List.length_map]
      have hi2 : i < (flatPairs side).length := hlen ▸ hi
      have hget : side.allParams.get ⟨i, hi⟩ = ((flatPairs side).get ⟨i, hi2⟩).1 := by
        have hg := List.get_of_eq (flatPairs_fst side).symm ⟨i, hi⟩
        rw [hg, List.get_map]
      rw [hget]
      have hnd2 : ((flatPairs side).map Prod.fst).Nodup := by
        rw [flatPairs_fst side]
        exact hnd
      have := buildCpuLoop_lookup (flatPairs side) ⟨[], [], []⟩ hnd2 i hi2
      simpa using this
  · intro cfg input env h e out hov hms hinit hout hlen
    have hparts := hdoInit_ok_parts cfg input env h e
      (fun hc => by rw [hms] at hc; exact hc.2 rfl) hinit out hout
    rw [if_pos ⟨hov, hlen⟩, if_pos ⟨hov, hlen⟩] at hparts
    exact hparts
  · intro cfg input env h e hov hinit
    have hcond : ¬ (cfg.overlap = true ∧ ¬ (cfg.multi_streams = true)) := by
      intro hc
      rw [hov] at hc
      exact absurd hc.1 (by simp)
    have hnov : ∀ (out : SplitOut), ¬ (cfg.overlap ∧ 0 < out.cpuSide.pyLen) := by
      intro out hc
      rw [hov] at hc
      exact absurd hc.1 (by simp)
    unfold hdoInit at hinit
    rw [if_neg hcond] at hinit
    cases hs : split input cfg.offload_fraction with
    | error e2 =>
      unfold initSubOptimizers at hinit
      rw [hs] at hinit
      simp only [Bind.bind, Except.bind] at hinit
      exact Except.noConfusion hinit
    | ok out =>
      have hparts := hdoInit_ok_parts cfg input env h e hcond
        (by unfold hdoInit; rw [if_neg hcond]; exact hinit) out hs
      rw [if_neg (hnov out), if_neg (hnov out)] at hparts
      obtain ⟨hcpu, hrout⟩ := hparts
      refine ⟨?_, hrout, ?_, ?_⟩
      · rw [hcpu]
        by_cases hl : 0 < out.cpuSide.pyLen
        · rw [if_pos hl]
          exact Nat.le_refl 1
        · rw [if_neg hl]
          exact Nat.zero_le 1
      · intro p
        rw [hrout]
        rfl
      · intro out2 hout2 hl2
        have hoo : out = out2 := Except.ok.inj hout2
        subst hoo
        rw [hcpu, if_pos hl2]

/-- Closed instance of C6: a one-parameter host side gives routing index 0
for the parameter, and an overlap construction installs exactly the per-
parameter optimizer list and routing dict. -/
theorem overlap_builds_one_optimizer_per_param_witness :
    (ParamsInput.grouped [⟨[exShadow], [("lr", 5)]⟩]).allParams.Nodup
    ∧ dictGet? (buildCpuOptimizerList
        (.grouped [⟨[exShadow], [("lr", 5)]⟩])).param_optimizer_mapping exShadow = some 0
    ∧ ∃ h e, hdoInit ⟨ratOne, true, true⟩ (.flat [exParam]) exEnv = .ok (h, e)
        ∧ h.cpu_optimizers
            = (buildCpuOptimizerList (ParamsInput.flat [exShadow])).cpu_optimizers
        ∧ h.routing
            = .table (buildCpuOptimizerList
                (ParamsInput.flat [exShadow])).param_optimizer_mapping := by
  refine ⟨by decide, ?_, ?_⟩
  · exact (overlap_builds_one_optimizer_per_param.1
      (.grouped [⟨[exShadow], [("lr", 5)]⟩])).2.2 (by decide) 0 (by decide)
  · refine ⟨_, _, rfl, ?_⟩
    exact overlap_builds_one_optimizer_per_param.2.1 ⟨ratOne, true, true⟩
      (.flat [exParam]) exEnv _ _
      ⟨.flat [exShadow], .flat [], [(exParam, exShadow)], [(exShadow, exParam)]⟩
      rfl rfl rfl (by decide) (by decide)

/-! Environment and staging lemmas for the step pipeline. -/

theorem setGrad_grad (e : Env) (p : Param) (g : Option Nat) (x : Param) :
    (setGrad e p g).grad x = if x = p then g else e.grad x := rfl

theorem setReq_grad (e : Env) (p : Param) (b : Bool) (x : Param) :
    (setReq e p b).grad x = e.grad x := rfl

theorem foldl_setGrad_grad (l : List Param) (v : Option Nat) :
    ∀ (env : Env) (x : Param),
      (l.foldl (fun e p => setGrad e p v) env).grad x = if x ∈ l then v else env.grad x := by
  induction l with
  | nil => intro env x; simp
  | cons p rest ih =>
    intro env x
    rw [List.foldl_cons, ih]
    by_cases hx : x ∈ rest
    · rw [if_pos hx, if_pos (List.mem_cons_of_mem p hx)]
    · rw [if_neg hx, setGrad_grad]
      by_cases hxp : x = p
      · rw [if_pos hxp, if_pos (by rw [hxp]; exact List.mem_cons_self p rest)]
      · rw [if_neg hxp, if_neg (by simp [List.mem_cons, hxp, hx])]

theorem registerShadows_grad (cs : List Param) :
    ∀ (e : Env) (x : Param),
      (registerShadows e cs).grad x = if x ∈ cs then none else e.grad x := by
  induction cs with
  | nil => intro e x; simp [registerShadows]
  | cons c rest ih =>
    intro e x
    show (registerShadows (setReq (setGrad e c none) c true) rest).grad x = _
    rw [ih]
    by_cases hx : x ∈ rest
    · rw [if_pos hx, if_pos (List.mem_cons_of_mem c hx)]
    · rw [if_neg hx, setReq_grad, setGrad_grad]
      by_cases hxc : x = c
      · rw [if_pos hxc, if_pos (by rw [hxc]; exact List.mem_cons_self c rest)]
      · rw [if_neg hxc, if_neg (by simp [List.mem_cons, hxc, hx])]

theorem stageOne_ok (c2g : List (Param × Param)) (bufs : Param → Option Nat) (env : Env)
    (p g : Param) (v : Nat) (hget : dictGet? c2g p = some g) (hgrad : env.grad g = some v) :
    ∃ bufs2, stageOne c2g bufs env p
        = .ok (bufs2, setReq (setGrad env p (some v)) p true)
      ∧ (∀ x, ¬ x = p → bufs2 x = bufs x) ∧ bufs2 p = some v := by
  cases hb : bufs p with
  | none =>
    refine ⟨fun q => if q = p then some v else (fun q2 => if q2 = p then some 0 else bufs q2) q,
      ?_, ?_, ?_⟩
    · simp [stageOne, hget, hb, hgrad, hasattrGrad, Bind.bind, Except.bind]
    · intro x hx
      simp [hx]
    · simp
  | some w =>
    refine ⟨fun q => if q = p then some v else bufs q, ?_, ?_, ?_⟩
    · simp [stageOne, hget, hb, hgrad, hasattrGrad, Bind.bind, Except.bind]
    · intro x hx
      simp [hx]
    · simp

theorem stageParams_char (c2g : List (Param × Param)) (qs : List Param) :
    ∀ (bufs : Param → Option Nat) (env : Env),
      (∀ q ∈ qs, ∃ g, dictGet? c2g q = some g ∧ env.grad g = some 1) →
      ∃ bufs2 env2, stageParams c2g qs bufs env = .ok (bufs2, env2)
        ∧ (∀ x, env2.grad x = if x ∈ qs then some 1 else env.grad x) := by
  induction qs with
  | nil =>
    intro bufs env _
    exact ⟨bufs, env, rfl, fun x => by simp⟩
  | cons q rest ih =>
    intro bufs env hyp
    obtain ⟨g, hget, hgrad⟩ := hyp q (List.mem_cons_self q rest)
    obtain ⟨bufs1, hstage, _, _⟩ := stageOne_ok c2g bufs env q g 1 hget hgrad
    set env1 := setReq (setGrad env q (some 1)) q true with henv1
    have hyp1 : ∀ q2 ∈ rest, ∃ g2, dictGet? c2g q2 = some g2 ∧ env1.grad g2 = some 1 := by
      intro q2 hq2
      obtain ⟨g2, hget2, hgrad2⟩ := hyp q2 (List.mem_cons_of_mem q hq2)
      refine ⟨g2, hget2, ?_⟩
      rw [henv1, setReq_grad, setGrad_grad]
      by_cases hgq : g2 = q
      · rw [if_pos hgq]
      · rw [if_neg hgq]
        exact hgrad2
    obtain ⟨bufs2, env2, hrest, hgrads⟩ := ih bufs1 env1 hyp1
    refine ⟨bufs2, env2, ?_, ?_⟩
    · show (do
        let be ← stageOne c2g bufs env q
        stageParams c2g rest be.1 be.2) = _
      rw [hstage]
      simpa [Bind.bind, Except.bind] using hrest
    · intro x
      rw [hgrads x]
      by_cases hx : x ∈ rest
      · rw [if_pos hx, if_pos (List.mem_cons_of_mem q hx)]
      · rw [if_neg hx, henv1, setReq_grad, setGrad_grad]
        by_cases hxq : x = q
        · rw [if_pos hxq, if_pos (by rw [hxq]; exact List.mem_cons_self q rest)]
        · rw [if_neg hxq, if_neg (by simp [List.mem_cons, hxq, hx])]

/-! Lemmas about the unified hyperparameter index and the group sync. -/

theorem indexfold_ne_none (remapf : Param → Param) (pairs : List ((Nat × Nat) × Param)) :
    ∀ (f0 : Param → Option (Nat × Nat)) (q : Param),
      (q ∈ pairs.map (fun ip => remapf ip.2) ∨ f0 q ≠ none) →
      (pairs.foldl (fun f ip => fun q2 =>
        if q2 = remapf ip.2 then some ip.1 else f q2) f0) q ≠ none := by
  induction pairs with
  | nil =>
    intro f0 q hq
    rcases hq with hq | hq
    · simp at hq
    · exact hq
  | cons a rest ih =>
    intro f0 q hq
    rw [List.foldl_cons]
    apply ih
    by_cases hqa : q = remapf a.2
    · right
      simp [hqa]
    · rcases hq with hq | hq
      · rw [List.map_cons] at hq
        rcases List.mem_cons.mp hq with hq2 | hq2
        · exact absurd hq2 hqa
        · exact Or.inl hq2
      · right
        simpa [hqa] using hq

theorem indexfold_val (P : (Nat × Nat) → Prop) (remapf : Param → Param)
    (pairs : List ((Nat × Nat) × Param)) :
    ∀ (f0 : Param → Option (Nat × Nat)) (q v),
      (∀ w, f0 q = some w → P w) → (∀ ip ∈ pairs, P ip.1) →
      (pairs.foldl (fun f ip => fun q2 =>
        if q2 = remapf ip.2 then some ip.1 else f q2) f0) q = some v → P v := by
  induction pairs with
  | nil =>
    intro f0 q v hf0 _ hv
    exact hf0 v hv
  | cons a rest ih =>
    intro f0 q v hf0 hpairs hv
    rw [List.foldl_cons] at hv
    refine ih _ q v ?_ (fun ip hip => hpairs ip (List.mem_cons_of_mem a hip)) hv
    intro w hw
    by_cases hqa : q = remapf a.2
    · rw [if_pos hqa] at hw
      cases hw
      exact hpairs a (List.mem_cons_self a rest)
    · rw [if_neg hqa] at hw
      exact hf0 w hw

theorem indexedUnifiedPairs_single (ps : List Param) :
    indexedUnifiedPairs [⟨ps, []⟩] = ps.enum.map (fun pp => ((0, pp.1), pp.2)) := by
  simp [indexedUnifiedPairs]

theorem enum_map_snd_fn {α β : Type} (f : α → β) (l : List α) :
    l.enum.map (fun pp => f pp.2) = l.map f := by
  have h1 : l.enum.map (fun pp => f pp.2) = (l.enum.map Prod.snd).map f := by
    rw [List.map_map]
    rfl
  rw [h1, List.enum_map_snd]

theorem paramGroupIndex_single_hit (h : HDO) (ps : List Param)
    (hpg : h.param_groups = [⟨ps, []⟩]) (q : Param)
    (hq : q ∈ ps.map (fun p => dictGetD h.g2c p p)) :
    ∃ gi, paramGroupIndex h q = some gi ∧ gi.1 < h.param_groups.length := by
  unfold paramGroupIndex
  rw [hpg, indexedUnifiedPairs_single]
  have hne := indexfold_ne_none (fun p => dictGetD h.g2c p p)
    (ps.enum.map (fun pp => ((0, pp.1), pp.2))) (fun _ => none) q
    (by
      left
      rw [List.map_map]
      show q ∈ ps.enum.map (fun pp => dictGetD h.g2c pp.2 pp.2)
      rw [enum_map_snd_fn (fun p => dictGetD h.g2c p p) ps]
      exact hq)
  set res := (ps.enum.map (fun pp => ((0, pp.1), pp.2))).foldl
    (fun f ip => fun q2 => if q2 = dictGetD h.g2c ip.2 ip.2 then some ip.1 else f q2)
    (fun _ => none) with hres
  cases hr : res q with
  | none =>
    rw [hr] at hne
    exact absurd rfl hne
  | some gi =>
    refine ⟨gi, rfl, ?_⟩
    have hval := indexfold_val (fun v => v.1 < 1) (fun p => dictGetD h.g2c p p)
      (ps.enum.map (fun pp => ((0, pp.1), pp.2))) (fun _ => none) q gi
      (by intro w hw; cases hw)
      (by
        intro ip hip
        rcases List.mem_map.mp hip with ⟨pp, _, rfl⟩
        exact Nat.zero_lt_one)
      hr
    exact hval

theorem syncOneGroup_params (unified : List Group) (index : Param → Option (Nat × Nat))
    (g g' : Group) (h : syncOneGroup unified index g = .ok g') : g'.params = g.params := by
  obtain ⟨gparams, gattrs⟩ := g
  cases gparams with
  | nil =>
    simp only [syncOneGroup] at h
    exact Except.noConfusion h
  | cons p rest =>
    simp only [syncOneGroup] at h
    cases hi : index p with
    | none =>
      simp only [hi] at h
      exact Except.noConfusion h
    | some gi =>
      simp only [hi] at h
      cases hu : unified.get? gi.1 with
      | none =>
        simp only [hu] at h
        exact Except.noConfusion h
      | some u =>
        simp only [hu] at h
        cases h
        rfl

theorem syncOneGroup_ok_of (unified : List Group) (index : Param → Option (Nat × Nat))
    (g : Group) (hne : g.params ≠ [])
    (hidx : ∀ p, g.params.head? = some p →
      ∃ gi, index p = some gi ∧ gi.1 < unified.length) :
    ∃ g', syncOneGroup unified index g = .ok g' ∧ g'.params = g.params := by
  obtain ⟨gparams, gattrs⟩ := g
  cases gparams with
  | nil => exact absurd rfl hne
  | cons p rest =>
    obtain ⟨gi, hgi, hlt⟩ := hidx p rfl
    have hu : unified.get? gi.1 = some (unified.get ⟨gi.1, hlt⟩) := List.get?_eq_get hlt
    refine ⟨⟨p :: rest, dictUpdate gattrs
      (stripGroupAttrs (unified.get ⟨gi.1, hlt⟩).attrs)⟩, ?_, rfl⟩
    simp only [syncOneGroup, hgi, hu]

theorem mapM_groups_ok (f : Group → Except PyError Group) (gs : List Group)
    (h : ∀ g ∈ gs, ∃ g', f g = .ok g' ∧ g'.params = g.params) :
    ∃ gs', gs.mapM f = .ok gs' ∧ gs'.map Group.params = gs.map Group.params := by
  induction gs with
  | nil => exact ⟨[], rfl, rfl⟩
  | cons g rest ih =>
    obtain ⟨g', hg', hparams⟩ := h g (List.mem_cons_self g rest)
    obtain ⟨rest', hrest', hparams2⟩ := ih (fun g2 hg2 => h g2 (List.mem_cons_of_mem g hg2))
    refine ⟨g' :: rest', ?_, ?_⟩
    · rw [List.mapM_cons, hg', hrest']
      rfl
    · simp [hparams, hparams2]

theorem subOpt_withGroups_allParams (o : SubOptimizer) (groups2 : List Group)
    (hparams : groups2.map Group.params = o.param_groups.map Group.params) :
    SubOptimizer.allParams { o with param_groups := groups2 } = o.allParams := by
  show (groups2.map Group.params).flatten = (o.param_groups.map Group.params).flatten
  rw [hparams]

theorem syncCpuLoop_char (unified : List Group) (index : Param → Option (Nat × Nat))
    (c2g : List (Param × Param)) (opts : List SubOptimizer) :
    ∀ (bufs : Param → Option Nat) (env : Env),
      (∀ o ∈ opts, ∀ g ∈ o.param_groups, g.params ≠ []
        ∧ ∀ p, g.params.head? = some p → ∃ gi, index p = some gi ∧ gi.1 < unified.length) →
      (∀ o ∈ opts, ∀ q ∈ o.allParams, ∃ gp, dictGet? c2g q = some gp ∧ env.grad gp = some 1) →
      ∃ opts2 bufs2 env2,
        syncCpuLoop unified index c2g opts bufs env = .ok (opts2, bufs2, env2)
        ∧ opts2.map SubOptimizer.allParams = opts.map SubOptimizer.allParams
        ∧ opts2.map SubOptimizer.state = opts.map SubOptimizer.state
        ∧ ∀ x, env2.grad x
            = if x ∈ (opts.map SubOptimizer.allParams).flatten then some 1
              else env.grad x := by
  induction opts with
  | nil =>
    intro bufs env _ _
    exact ⟨[], bufs, env, rfl, rfl, rfl, fun x => by simp⟩
  | cons o rest ih =>
    intro bufs env hgrp hstage
    obtain ⟨groups2, hmap, hparams⟩ := mapM_groups_ok (syncOneGroup unified index)
      o.param_groups
      (fun g hg => syncOneGroup_ok_of unified index g
        (hgrp o (List.mem_cons_self o rest) g hg).1
        (hgrp o (List.mem_cons_self o rest) g hg).2)
    obtain ⟨bufs1, env1, hstg, hgrads1⟩ := stageParams_char c2g o.allParams bufs env
      (fun q hq => hstage o (List.mem_cons_self o rest) q hq)
    obtain ⟨opts2, bufs2, env2, hrest, hall, hstates, hgrads2⟩ := ih bufs1 env1
      (fun o2 h2 => hgrp o2 (List.mem_cons_of_mem o h2))
      (fun o2 h2 q hq => by
        obtain ⟨gp, hget, hgrad⟩ := hstage o2 (List.mem_cons_of_mem o h2) q hq
        refine ⟨gp, hget, ?_⟩
        rw [hgrads1]
        by_cases hgpo : gp ∈ o.allParams
        · rw [if_pos hgpo]
        · rw [if_neg hgpo]
          exact hgrad)
    refine ⟨{ o with param_groups := groups2 } :: opts2, bufs2, env2, ?_, ?_, ?_, ?_⟩
    · show (do
        let groups ← o.param_groups.mapM (syncOneGroup unified index)
        let be ← stageParams c2g o.allParams bufs env
        let r ← syncCpuLoop unified index c2g rest be.1 be.2
        Except.ok ({ o with param_groups := groups } :: r.1, r.2)) = _
      rw [hmap, hstg]
      simp only [Bind.bind, Except.bind]
      rw [hrest]
    · rw [List.map_cons, List.map_cons, hall,
        subOpt_withGroups_allParams o groups2 hparams]
    · rw [List.map_cons, List.map_cons, hstates]
    · intro x
      rw [hgrads2 x, List.map_cons, List.flatten_cons]
      by_cases hxr : x ∈ (rest.map SubOptimizer.allParams).flatten
      · rw [if_pos hxr, if_pos (List.mem_append.mpr (Or.inr hxr))]
      · rw [if_neg hxr, hgrads1 x]
        by_cases hxo : x ∈ o.allParams
        · rw [if_pos hxo, if_pos (List.mem_append.mpr (Or.inl hxo))]
        · rw [if_neg hxo, if_neg (by
            intro hc
            rcases List.mem_append.mp hc with hc | hc
            · exact hxo hc
            · exact hxr hc)]

theorem stateFold_mono (env : Env) (l : List Param) :
    ∀ (st0 : List (Param × Nat)) (q : Param), dictContains st0 q = true →
      dictContains (l.foldl (fun st p => match env.grad p with
        | some _ => dictSet st p 1
        | none => st) st0) q = true := by
  induction l with
  | nil => intro st0 q hq; exact hq
  | cons p rest ih =>
    intro st0 q hq
    rw [List.foldl_cons]
    apply ih
    cases hg : env.grad p with
    | none => exact hq
    | some v =>
      rw [dictContains_dictSet, hq]
      exact Bool.or_true _

theorem stateFold_contains (env : Env) (l : List Param) :
    ∀ (st0 : List (Param × Nat)) (q : Param), q ∈ l → env.grad q ≠ none →
      dictContains (l.foldl (fun st p => match env.grad p with
        | some _ => dictSet st p 1
        | none => st) st0) q = true := by
  induction l with
  | nil => intro st0 q hq _; cases hq
  | cons p rest ih =>
    intro st0 q hq hg
    rw [List.foldl_cons]
    by_cases hqp : q = p
    · subst hqp
      cases hgq : env.grad q with
      | none => exact absurd hgq hg
      | some v =>
        apply stateFold_mono
        rw [dictContains_dictSet]
        simp
    · rcases List.mem_cons.mp hq with hc | hc
      · exact absurd hc hqp
      · exact ih _ q hc hg

theorem subOptStep_contains (env : Env) (o : SubOptimizer) (q : Param)
    (hq : q ∈ o.allParams) (hg : env.grad q ≠ none) :
    dictContains (subOptStep env o).state q = true :=
  stateFold_contains env o.allParams o.state q hq hg

theorem subOptZeroGrad_grad (env : Env) (o : SubOptimizer) (x : Param) :
    (subOptZeroGrad env o).grad x = if x ∈ o.allParams then none else env.grad x :=
  foldl_setGrad_grad o.allParams none env x

theorem foldl_zeroGrad_grad (opts : List SubOptimizer) :
    ∀ (env : Env) (x : Param),
      (opts.foldl subOptZeroGrad env).grad x
        = if x ∈ (opts.map SubOptimizer.allParams).flatten then none else env.grad x := by
  induction opts with
  | nil => intro env x; simp
  | cons o rest ih =>
    intro env x
    rw [List.foldl_cons, ih, List.map_cons, List.flatten_cons]
    by_cases hxr : x ∈ (rest.map SubOptimizer.allParams).flatten
    · rw [if_pos hxr, if_pos (List.mem_append.mpr (Or.inr hxr))]
    · rw [if_neg hxr, subOptZeroGrad_grad]
      by_cases hxo : x ∈ o.allParams
      · rw [if_pos hxo, if_pos (List.mem_append.mpr (Or.inl hxo))]
      · rw [if_neg hxo, if_neg (by
          intro hc
          rcases List.mem_append.mp hc with hc | hc
          · exact hxo hc
          · exact hxr hc)]

theorem flatten_map_singleton (l : List Param) : (l.map (fun c => [c])).flatten = l := by
  induction l with
  | nil => rfl
  | cons c rest ih => simp [ih]

theorem hdoInit_flat_char (cfg : Config) (ps : List Param) (env0 : Env) (h : HDO) (e : Env)
    (hwf : WFParams ps)
    (hinit : hdoInit cfg (.flat ps) env0 = .ok (h, e)) :
    h.param_groups = [⟨ps, []⟩]
    ∧ h.g2c = (offloadedOf cfg.offload_fraction (totalNumel ps) 0 ps).map
        (fun p => (p, mkCpuCopy p))
    ∧ h.c2g = (offloadedOf cfg.offload_fraction (totalNumel ps) 0 ps).map
        (fun p => (mkCpuCopy p, p))
    ∧ (h.cpu_optimizers.map SubOptimizer.allParams).flatten
        = (offloadedOf cfg.offload_fraction (totalNumel ps) 0 ps).map mkCpuCopy
    ∧ (∀ o ∈ h.cpu_optimizers, ∀ g ∈ o.param_groups, g.params ≠ []
        ∧ ∀ q ∈ g.params,
            q ∈ (offloadedOf cfg.offload_fraction (totalNumel ps) 0 ps).map mkCpuCopy)
    ∧ h.gpu_optimizer
        = (if 0 < (retainedOf cfg.offload_fraction (totalNumel ps) 0 ps).length
            then some ⟨[⟨retainedOf cfg.offload_fraction (totalNumel ps) 0 ps, []⟩], []⟩
            else none)
    ∧ e = registerShadows env0
        ((offloadedOf cfg.offload_fraction (totalNumel ps) 0 ps).map mkCpuCopy)
    ∧ h.cpu_copy_map_grad = (fun _ => none)
    ∧ h.hdo_state = [] := by
  unfold hdoInit at hinit
  by_cases hc : cfg.overlap = true ∧ ¬ (cfg.multi_streams = true)
  · rw [if_pos hc] at hinit
    exact Except.noConfusion hinit
  rw [if_neg hc] at hinit
  cases hs : initSubOptimizers cfg (.flat ps) env0 with
  | error e2 =>
    rw [hs] at hinit
    exact Except.noConfusion hinit
  | ok pr =>
    rw [hs] at hinit
    simp only [Bind.bind, Except.bind] at hinit
    have hpr := Except.ok.inj hinit
    have hh : h = { pr.1 with param_groups := unifiedGroups (.flat ps) } :=
      (congrArg Prod.fst hpr).symm
    have he : e = pr.2 := (congrArg Prod.snd hpr).symm
    unfold initSubOptimizers at hs
    cases hsp : split (.flat ps) cfg.offload_fraction with
    | error e3 =>
      rw [hsp] at hs
      exact Except.noConfusion hs
    | ok so =>
      rw [hsp] at hs
      simp only [Bind.bind, Except.bind] at hs
      have hso := Except.ok.inj hs
      simp only [split] at hsp
      obtain ⟨acc, hacc, hsoeq⟩ := except_map_ok _ _ _ hsp
      obtain ⟨hc1, hc2, hc3, hc4⟩ := splitFlat_ok_char ps cfg.offload_fraction acc hwf hacc
      have hcpuside : so.cpuSide
          = .flat ((offloadedOf cfg.offload_fraction (totalNumel ps) 0 ps).map mkCpuCopy) := by
        rw [hsoeq, ← hc1]
      have hgpuside : so.gpuSide
          = .flat (retainedOf cfg.offload_fraction (totalNumel ps) 0 ps) := by
        rw [hsoeq, ← hc2]
      have hg2c : so.g2c = (offloadedOf cfg.offload_fraction (totalNumel ps) 0 ps).map
          (fun p => (p, mkCpuCopy p)) := by
        rw [hsoeq, ← hc3]
      have hc2g : so.c2g = (offloadedOf cfg.offload_fraction (totalNumel ps) 0 ps).map
          (fun p => (mkCpuCopy p, p)) := by
        rw [hsoeq, ← hc4]
      have hshadows : so.c2g.map Prod.fst
          = (offloadedOf cfg.offload_fraction (totalNumel ps) 0 ps).map mkCpuCopy := by
        rw [hc2g]
        exact map_fst_map_pair_rev mkCpuCopy _
      rw [hh, he, ← hso]
      by_cases hov : cfg.overlap ∧ 0 < so.cpuSide.pyLen
      · rw [if_pos hov]
        have hopts : (buildCpuOptimizerList so.cpuSide).cpu_optimizers
            = ((offloadedOf cfg.offload_fraction (totalNumel ps) 0 ps).map mkCpuCopy).map
                (fun c => (⟨[⟨[c], []⟩], []⟩ : SubOptimizer)) := by
          rw [hcpuside]
          show (buildCpuLoop (((offloadedOf cfg.offload_fraction (totalNumel ps) 0 ps).map
            mkCpuCopy).map (fun p => (p, []))) ⟨[], [], []⟩).cpu_optimizers = _
          rw [buildCpuLoop_opts, List.nil_append, List.map_map]
          rfl
        refine ⟨rfl, hg2c, hc2g, ?_, ?_, ?_, ?_, rfl, rfl⟩
        · show ((buildCpuOptimizerList so.cpuSide).cpu_optimizers.map
            SubOptimizer.allParams).flatten = _
          rw [hopts, List.map_map]
          have : (SubOptimizer.allParams ∘ fun c => (⟨[⟨[c], []⟩], []⟩ : SubOptimizer))
              = fun c => [c] := by
            funext c
            rfl
          rw [this, flatten_map_singleton]
        · intro o ho g hg
          rw [hopts] at ho
          rcases List.mem_map.mp ho with ⟨c, hcmem, rfl⟩
          rcases List.mem_cons.mp hg with rfl | hg2
          · refine ⟨by simp, ?_⟩
            intro q hq
            rcases List.mem_cons.mp hq with rfl | hq2
            · exact hcmem
            · cases hq2
          · cases hg2
        · rw [hgpuside]
          show (if 0 < (retainedOf cfg.offload_fraction (totalNumel ps) 0 ps).length
            then some (mkSubOptimizerFromInput
              (.flat (retainedOf cfg.offload_fraction (totalNumel ps) 0 ps)))
            else none) = _
          by_cases hr : 0 < (retainedOf cfg.offload_fraction (totalNumel ps) 0 ps).length
          · rw [if_pos hr, if_pos hr]
            rfl
          · rw [if_neg hr, if_neg hr]
        · rw [hshadows]
      · rw [if_neg hov]
        have hcpu2 : (if 0 < so.cpuSide.pyLen
            then [mkSubOptimizerFromInput so.cpuSide] else [])
          = (if 0 < ((offloadedOf cfg.offload_fraction (totalNumel ps) 0 ps).map
              mkCpuCopy).length
            then [(⟨[⟨(offloadedOf cfg.offload_fraction (totalNumel ps) 0 ps).map mkCpuCopy,
              []⟩], []⟩ : SubOptimizer)] else []) := by
          rw [hcpuside]
          rfl
        refine ⟨rfl, hg2c, hc2g, ?_, ?_, ?_, ?_, rfl, rfl⟩
        · show ((if 0 < so.cpuSide.pyLen then [mkSubOptimizerFromInput so.cpuSide] else []).map
            SubOptimizer.allParams).flatten = _
          rw [hcpu2]
          by_cases hl : 0 < ((offloadedOf cfg.offload_fraction (totalNumel ps) 0 ps).map
              mkCpuCopy).length
          · rw [if_pos hl]
            simp [SubOptimizer.allParams]
          · rw [if_neg hl]
            have : (offloadedOf cfg.offload_fraction (totalNumel ps) 0 ps).map mkCpuCopy = [] := by
              cases hme : (offloadedOf cfg.offload_fraction (totalNumel ps) 0 ps).map mkCpuCopy with
              | nil => rfl
              | cons a b =>
                rw [hme] at hl
                exact absurd (Nat.zero_lt_succ _) hl
            rw [this]
            rfl
        · intro o ho g hg
          rw [hcpu2] at ho
          by_cases hl : 0 < ((offloadedOf cfg.offload_fraction (totalNumel ps) 0 ps).map
              mkCpuCopy).length
          · rw [if_pos hl] at ho
            rcases List.mem_cons.mp ho with rfl | ho2
            · rcases List.mem_cons.mp hg with rfl | hg2
              · refine ⟨?_, ?_⟩
                · intro hnil
                  have hnil2 : ((offloadedOf cfg.offload_fraction (totalNumel ps) 0 ps).map
                      mkCpuCopy) = [] := hnil
                  rw [hnil2] at hl
                  exact absurd hl (by simp)
                · intro q hq
                  exact hq
              · cases hg2
            · cases ho2
          · rw [if_neg hl] at ho
            cases ho
        · rw [hgpuside]
          show (if 0 < (retainedOf cfg.offload_fraction (totalNumel ps) 0 ps).length
            then some (mkSubOptimizerFromInput
              (.flat (retainedOf cfg.offload_fraction (totalNumel ps) 0 ps)))
            else none) = _
          by_cases hr : 0 < (retainedOf cfg.offload_fraction (totalNumel ps) 0 ps).length
          · rw [if_pos hr, if_pos hr]
            rfl
          · rw [if_neg hr, if_neg hr]
        · rw [hshadows]

theorem dictContains_mem {α β : Type} [DecidableEq α] (d : List (α × β)) (k : α)
    (h : dictContains d k = true) : ∃ v, (k, v) ∈ d := by
  induction d with
  | nil => simp [dictContains, dictGet?] at h
  | cons kv rest ih =>
    obtain ⟨k2, v2⟩ := kv
    simp only [dictContains, dictGet?] at h
    by_cases hk : k2 = k
    · subst hk
      exact ⟨v2, List.mem_cons_self _ _⟩
    · rw [if_neg hk] at h
      obtain ⟨v, hv⟩ := ih h
      exact ⟨v, List.mem_cons_of_mem _ hv⟩

/-- C9 (amended): on any freshly constructed optimizer over a flat
well-formed parameter list, `dummy_step` raises no error; afterwards the
unified state dict holds an entry for every input parameter, and the
gradient of every parameter owned by some sub-optimizer (every host shadow
and every retained device parameter) is cleared — but the offloaded
original device parameters keep the placeholder gradient, so not all
gradients are cleared as the claim says. -/
theorem dummy_step_state_population_and_gradients (cfg : Config) (ps : List Param)
    (env0 : Env) (h : HDO) (e : Env) (hwf : WFParams ps)
    (hinit : hdoInit cfg (.flat ps) env0 = .ok (h, e)) :
    ∃ s', dummyStep ⟨h, e⟩ = .ok s'
      ∧ (∀ p ∈ ps, dictContains s'.hdo.hdo_state p = true)
      ∧ (∀ q ∈ ((subOptimizersList s'.hdo).map SubOptimizer.allParams).flatten,
          s'.env.grad q = none)
      ∧ (∀ p ∈ offloadedOf cfg.offload_fraction (totalNumel ps) 0 ps,
          s'.env.grad p = some 1) := by
  obtain ⟨hpg, hg2c, hc2g, hflat, hgrps, hgpu, -, -, -⟩ :=
    hdoInit_flat_char cfg ps env0 h e hwf hinit
  set offl := offloadedOf cfg.offload_fraction (totalNumel ps) 0 ps with hoffldef
  set ret := retainedOf cfg.offload_fraction (totalNumel ps) 0 ps with hretdef
  have hndps := wf_nodup ps hwf
  have hsubO : List.Sublist offl ps := offloadedOf_sublist _ _ _ _
  have hsubR : List.Sublist ret ps := retainedOf_sublist _ _ _ _
  have hinj := mkCpuCopy_inj_on ps offl hsubO hwf
  have hshd : ∀ q ∈ offl.map mkCpuCopy, q.isShadow = true := by
    intro q hq
    rcases List.mem_map.mp hq with ⟨a, -, rfl⟩
    rfl
  have hnotshd : ∀ p ∈ ps, p ∉ offl.map mkCpuCopy := by
    intro p hp hc
    have h1 := hshd p hc
    have h2 := hwf.2 p hp
    rw [h2] at h1
    exact Bool.noConfusion h1
  have hremapO : ∀ p ∈ offl, dictGetD h.g2c p p = mkCpuCopy p := by
    intro p hp
    show (dictGet? h.g2c p).getD p = _
    rw [hg2c, dictGet?_map_self mkCpuCopy offl p, if_pos hp]
    rfl
  have hremapR : ∀ p ∈ ps, p ∉ offl → dictGetD h.g2c p p = p := by
    intro p hp hpo
    show (dictGet? h.g2c p).getD p = _
    rw [hg2c, dictGet?_map_self mkCpuCopy offl p, if_neg hpo]
    rfl
  have hc2gO : ∀ p ∈ offl, dictGet? h.c2g (mkCpuCopy p) = some p := by
    intro p hp
    rw [hc2g]
    exact dictGet?_map_pair_self mkCpuCopy offl hinj p hp
  have hc2gD : ∀ p ∈ offl, dictGetD h.c2g (mkCpuCopy p) (mkCpuCopy p) = p := by
    intro p hp
    show (dictGet? h.c2g (mkCpuCopy p)).getD _ = _
    rw [hc2gO p hp]
    rfl
  have hc2gR : ∀ p ∈ ps, dictGetD h.c2g p p = p := by
    intro p hp
    show (dictGet? h.c2g p).getD p = p
    cases hz : dictGet? h.c2g p with
    | none => rfl
    | some v =>
      rw [hc2g] at hz
      obtain ⟨hm, hk⟩ := dictGet?_map_pair mkCpuCopy offl p v hz
      have hps : p.isShadow = true := by
        rw [← hk]
        rfl
      rw [hwf.2 p hp] at hps
      exact Bool.noConfusion hps
  have hidxS : ∀ p ∈ offl, ∃ gi, paramGroupIndex h (mkCpuCopy p) = some gi
      ∧ gi.1 < h.param_groups.length := by
    intro p hp
    apply paramGroupIndex_single_hit h ps hpg
    exact List.mem_map.mpr ⟨p, hsubO.subset hp, hremapO p hp⟩
  have hidxR : ∀ p ∈ ret, ∃ gi, paramGroupIndex h p = some gi
      ∧ gi.1 < h.param_groups.length := by
    intro p hp
    have hps : p ∈ ps := hsubR.subset hp
    have hpo : p ∉ offl :=
      (mem_ret_iff cfg.offload_fraction (totalNumel ps) 0 ps hndps p hps).mp hp
    apply paramGroupIndex_single_hit h ps hpg
    exact List.mem_map.mpr ⟨p, hps, hremapR p hps hpo⟩
  have hfl : (h.param_groups.map Group.params).flatten = ps := by
    rw [hpg]
    simp
  set env1 := ps.foldl (fun e2 p => setGrad e2 p (some 1)) e with henv1
  have hgrad1 : ∀ x, env1.grad x = if x ∈ ps then some 1 else e.grad x := by
    intro x
    exact foldl_setGrad_grad ps (some 1) e x
  obtain ⟨opts2, bufs2, env2, hcpuloop, hall2, hstates2, hgrads2⟩ :=
    syncCpuLoop_char h.param_groups (paramGroupIndex h) h.c2g h.cpu_optimizers
      h.cpu_copy_map_grad env1
      (by
        intro o ho g hg
        obtain ⟨hne, hmem⟩ := hgrps o ho g hg
        refine ⟨hne, ?_⟩
        intro p hp
        cases hgp : g.params with
        | nil =>
          rw [hgp] at hp
          simp at hp
        | cons a t =>
          rw [hgp, List.head?_cons] at hp
          obtain rfl : a = p := Option.some.inj hp
          have haS : a ∈ offl.map mkCpuCopy :=
            hmem a (by rw [hgp]; exact List.mem_cons_self a t)
          rcases List.mem_map.mp haS with ⟨p0, hp0, rfl⟩
          exact hidxS p0 hp0)
      (by
        intro o ho q hq
        have hqS : q ∈ offl.map mkCpuCopy := by
          have hmem2 : q ∈ (h.cpu_optimizers.map SubOptimizer.allParams).flatten :=
            List.mem_flatten.mpr ⟨o.allParams, List.mem_map_of_mem _ ho, hq⟩
          rwa [hflat] at hmem2
        rcases List.mem_map.mp hqS with ⟨p0, hp0, rfl⟩
        refine ⟨p0, hc2gO p0 hp0, ?_⟩
        rw [hgrad1, if_pos (hsubO.subset hp0)])
  have hgcases : (h.gpu_optimizer = none ∧ ¬ 0 < ret.length)
      ∨ (h.gpu_optimizer = some ⟨[⟨ret, []⟩], []⟩ ∧ 0 < ret.length) := by
    by_cases hr : 0 < ret.length
    · exact Or.inr ⟨by rw [hgpu, if_pos hr], hr⟩
    · exact Or.inl ⟨by rw [hgpu, if_neg hr], hr⟩
  obtain ⟨gres, hsync, hgresAll⟩ :
      ∃ gres : Option SubOptimizer,
        syncHdoParamGroupsToSubOptimizers ⟨h, env1⟩
          = Except.ok ⟨{ h with
                          cpu_optimizers := opts2,
                          gpu_optimizer := gres,
                          cpu_copy_map_grad := bufs2 }, env2⟩
        ∧ gres.toList.map SubOptimizer.allParams
            = (if 0 < ret.length then [ret] else []) := by
    rcases hgcases with ⟨hgO, hr⟩ | ⟨hgS, hr⟩
    · refine ⟨none, ?_, by rw [if_neg hr]; rfl⟩
      show (do
        let r ← syncCpuLoop h.param_groups (paramGroupIndex h) h.c2g h.cpu_optimizers
          h.cpu_copy_map_grad env1
        let gpuRes ← match h.gpu_optimizer with
          | none => Except.ok (none : Option SubOptimizer)
          | some g => do
              let groups ← g.param_groups.mapM
                (syncOneGroup h.param_groups (paramGroupIndex h))
              Except.ok (some { g with param_groups := groups })
        Except.ok (⟨{ h with
                        cpu_optimizers := r.1,
                        gpu_optimizer := gpuRes,
                        cpu_copy_map_grad := r.2.1 }, r.2.2⟩ : Sys)) = _
      rw [hcpuloop, hgO]
      simp only [Bind.bind, Except.bind]
    · have hneR : ret ≠ [] := by
        intro hnil
        rw [hnil] at hr
        simp at hr
      obtain ⟨gs2, hmapM, hparams⟩ := mapM_groups_ok
        (syncOneGroup h.param_groups (paramGroupIndex h)) [⟨ret, []⟩]
        (by
          intro g hg
          rcases List.mem_cons.mp hg with rfl | hg2
          · apply syncOneGroup_ok_of h.param_groups (paramGroupIndex h) ⟨ret, []⟩ hneR
            intro p hp
            cases hrc : ret with
            | nil => exact absurd hrc hneR
            | cons a t =>
              rw [hrc] at hp
              have hp2 : some a = some p := hp
              obtain rfl : a = p := Option.some.inj hp2
              exact hidxR a (by rw [hrc]; exact List.mem_cons_self a t)
          · cases hg2)
      refine ⟨some { (⟨[⟨ret, []⟩], []⟩ : SubOptimizer) with param_groups := gs2 },
        ?_, ?_⟩
      · show (do
          let r ← syncCpuLoop h.param_groups (paramGroupIndex h) h.c2g h.cpu_optimizers
            h.cpu_copy_map_grad env1
          let gpuRes ← match h.gpu_optimizer with
            | none => Except.ok (none : Option SubOptimizer)
            | some g => do
                let groups ← g.param_groups.mapM
                  (syncOneGroup h.param_groups (paramGroupIndex h))
                Except.ok (some { g with param_groups := groups })
          Except.ok (⟨{ h with
                          cpu_optimizers := r.1,
                          gpu_optimizer := gpuRes,
                          cpu_copy_map_grad := r.2.1 }, r.2.2⟩ : Sys)) = _
        rw [hcpuloop, hgS]
        simp only [Bind.bind, Except.bind, hmapM]
      · rw [if_pos hr]
        have hall : SubOptimizer.allParams
            { (⟨[⟨ret, []⟩], []⟩ : SubOptimizer) with param_groups := gs2 } = ret := by
          show (gs2.map Group.params).flatten = ret
          rw [hparams]
          simp
        show [SubOptimizer.allParams
          { (⟨[⟨ret, []⟩], []⟩ : SubOptimizer) with param_groups := gs2 }] = [ret]
        rw [hall]
  set cpu3 := opts2.map (subOptStep env2) with hcpu3
  set gpu3 := gres.map (subOptStep env2) with hgpu3
  set newState := (cpu3 ++ gpu3.toList).foldl (fun ns opt => opt.state.foldl
    (fun ns2 kv => dictSet ns2 (dictGetD h.c2g kv.1 kv.1) kv.2) ns) [] with hnewState
  set hdoF : HDO := { h with
                        cpu_optimizers := cpu3,
                        gpu_optimizer := gpu3,
                        cpu_copy_map_grad := bufs2,
                        hdo_state := newState } with hhdoF
  set envF := (cpu3 ++ gpu3.toList).foldl subOptZeroGrad env2 with henvF
  have hstepEq : hdoStep ⟨h, env1⟩ = Except.ok (⟨hdoF, env2⟩ : Sys) := by
    show Bind.bind (syncHdoParamGroupsToSubOptimizers ⟨h, env1⟩)
      (fun s => Except.ok (syncSubOptimizersStateToHdo
        ⟨{ s.hdo with
             gpu_optimizer := s.hdo.gpu_optimizer.map (subOptStep s.env),
             cpu_optimizers := s.hdo.cpu_optimizers.map (subOptStep s.env) }, s.env⟩)) = _
    rw [hsync]
    simp only [Bind.bind, Except.bind]
    rfl
  have hstep : dummyStep ⟨h, e⟩ = Except.ok (⟨hdoF, envF⟩ : Sys) := by
    show Bind.bind (hdoStep ⟨h, ((h.param_groups.map Group.params).flatten).foldl
        (fun e2 p => setGrad e2 p (some 1)) e⟩)
      (fun s2 => Except.ok (hdoZeroGrad s2)) = _
    rw [hfl, ← henv1, hstepEq]
    simp only [Bind.bind, Except.bind]
    rfl
  refine ⟨⟨hdoF, envF⟩, hstep, ?_, ?_, ?_⟩
  · intro p hp
    have hpOR : p ∈ offl ∨ p ∈ ret := by
      have hperm := (offloaded_append_retained_perm cfg.offload_fraction
        (totalNumel ps) 0 ps).symm.subset hp
      exact List.mem_append.mp hperm
    show dictContains ((cpu3 ++ gpu3.toList).foldl (fun ns opt => opt.state.foldl
      (fun ns2 kv => dictSet ns2 (dictGetD h.c2g kv.1 kv.1) kv.2) ns) []) p = true
    rw [contains_nested_fold]
    refine Or.inr ?_
    rcases hpOR with hpO | hpR
    · have hq : mkCpuCopy p ∈ (opts2.map SubOptimizer.allParams).flatten := by
        rw [hall2, hflat]
        exact List.mem_map_of_mem mkCpuCopy hpO
      obtain ⟨l, hl, hql⟩ := List.mem_flatten.mp hq
      obtain ⟨o2, ho2, rfl⟩ := List.mem_map.mp hl
      have hcont := subOptStep_contains env2 o2 (mkCpuCopy p) hql
        (by
          rw [hgrads2, hflat, if_pos (List.mem_map_of_mem mkCpuCopy hpO)]
          exact fun hcc => Option.noConfusion hcc)
      obtain ⟨v, hv⟩ := dictContains_mem _ _ hcont
      refine ⟨subOptStep env2 o2, ?_, (mkCpuCopy p, v), hv, hc2gD p hpO⟩
      apply List.mem_append.mpr
      exact Or.inl (List.mem_map_of_mem (subOptStep env2) ho2)
    · have hr : 0 < ret.length := List.length_pos.mpr (List.ne_nil_of_mem hpR)
      rw [if_pos hr] at hgresAll
      cases hgg : gres with
      | none =>
        rw [hgg] at hgresAll
        simp at hgresAll
      | some og =>
        rw [hgg] at hgresAll
        simp only [Option.toList_some, List.map_cons, List.map_nil] at hgresAll
        obtain ⟨hogAll, -⟩ := List.cons.inj hgresAll
        have hcont := subOptStep_contains env2 og p (by rw [hogAll]; exact hpR)
          (by
            rw [hgrads2, hflat, if_neg (hnotshd p hp), hgrad1, if_pos hp]
            exact fun hcc => Option.noConfusion hcc)
        obtain ⟨v, hv⟩ := dictContains_mem _ _ hcont
        refine ⟨subOptStep env2 og, ?_, (p, v), hv, hc2gR p hp⟩
        apply List.mem_append.mpr
        refine Or.inr ?_
        rw [hgpu3, hgg]
        exact List.mem_cons_self _ _
  · intro q hq
    have hq2 : q ∈ ((cpu3 ++ gpu3.toList).map SubOptimizer.allParams).flatten := hq
    show ((cpu3 ++ gpu3.toList).foldl subOptZeroGrad env2).grad q = none
    rw [foldl_zeroGrad_grad, if_pos hq2]
  · intro p hpO
    have hp : p ∈ ps := hsubO.subset hpO
    show ((cpu3 ++ gpu3.toList).foldl subOptZeroGrad env2).grad p = some 1
    rw [foldl_zeroGrad_grad]
    have hnotin : p ∉ ((cpu3 ++ gpu3.toList).map SubOptimizer.allParams).flatten := by
      intro hc
      obtain ⟨l, hl, hpl⟩ := List.mem_flatten.mp hc
      obtain ⟨o3, ho3, rfl⟩ := List.mem_map.mp hl
      rcases List.mem_append.mp ho3 with hcpu | hgpum
      · rw [hcpu3] at hcpu
        obtain ⟨o2, ho2, rfl⟩ := List.mem_map.mp hcpu
        have hmem3 : p ∈ (opts2.map SubOptimizer.allParams).flatten :=
          List.mem_flatten.mpr ⟨o2.allParams, List.mem_map_of_mem _ ho2, hpl⟩
        rw [hall2, hflat] at hmem3
        exact hnotshd p hp hmem3
      · cases hgg : gres with
        | none =>
          rw [hgpu3, hgg] at hgpum
          simp at hgpum
        | some og =>
          rw [hgpu3, hgg] at hgpum
          have ho3eq : o3 = subOptStep env2 og := by
            simpa using hgpum
          subst ho3eq
          by_cases hr : 0 < ret.length
          · rw [if_pos hr, hgg] at hgresAll
            simp only [Option.toList_some, List.map_cons, List.map_nil] at hgresAll
            obtain ⟨hogAll, -⟩ := List.cons.inj hgresAll
            have hpret : p ∈ ret := by
              have hpl2 : p ∈ og.allParams := hpl
              rwa [hogAll] at hpl2
            have hpo : p ∉ offl :=
              (mem_ret_iff cfg.offload_fraction (totalNumel ps) 0 ps hndps p hp).mp hpret
            exact hpo hpO
          · rw [if_neg hr, hgg] at hgresAll
            simp at hgresAll
    rw [if_neg hnotin, hgrads2, hflat, if_neg (hnotshd p hp), hgrad1, if_pos hp]

/-- C9 counterexample: a freshly constructed optimizer over one CUDA
parameter that is offloaded entirely (`offload_fraction = 1`): after
`dummy_step`, the original device parameter still carries the placeholder
gradient, because `zero_grad` only reaches the sub-optimizers' parameters
(the host shadows and the retained device parameters), never the
offloaded originals — so not all gradients are cleared. -/
theorem dummy_step_keeps_offloaded_original_grad :
    ((hdoInit ⟨ratOne, false, true⟩ (.flat [exParam]) exEnv).bind
      (fun he => dummyStep ⟨he.1, he.2⟩)).map (fun s => s.env.grad exParam)
      = Except.ok (some 1) := by
  decide

/-- Witness: the C9 theorem applied to a single offloaded parameter. -/
theorem dummy_step_state_population_and_gradients_witness :
    WFParams [exParam]
    ∧ ∃ h e s', hdoInit ⟨ratOne, false, true⟩ (.flat [exParam]) exEnv = Except.ok (h, e)
        ∧ dummyStep ⟨h, e⟩ = Except.ok s'
        ∧ dictContains s'.hdo.hdo_state exParam = true := by
  refine ⟨by decide, ?_⟩
  obtain ⟨s', hs, hstate, -, -⟩ :=
    dummy_step_state_population_and_gradients ⟨ratOne, false, true⟩ [exParam] exEnv _ _
      (by decide) rfl
  exact ⟨_, _, s', rfl, hs, hstate exParam (List.mem_cons_self _ _)⟩

theorem dictGet?_mem {α β : Type} [DecidableEq α] (d : List (α × β)) (k : α) (v : β)
    (h : dictGet? d k = some v) : (k, v) ∈ d := by
  induction d with
  | nil => simp [dictGet?] at h
  | cons kv rest ih =>
    obtain ⟨k2, v2⟩ := kv
    simp only [dictGet?] at h
    by_cases hk : k2 = k
    · rw [if_pos hk] at h
      have hv : v2 = v := Option.some.inj h
      subst hk
      subst hv
      exact List.mem_cons_self _ _
    · rw [if_neg hk] at h
      exact List.mem_cons_of_mem _ (ih h)

theorem dictSet_of_get_eq {α β : Type} [DecidableEq α] (d : List (α × β)) (k : α) (v : β)
    (h : dictGet? d k = some v) : dictSet d k v = d := by
  induction d with
  | nil => simp [dictGet?] at h
  | cons kv rest ih =>
    obtain ⟨k2, v2⟩ := kv
    simp only [dictGet?] at h
    simp only [dictSet]
    by_cases hk : k2 = k
    · rw [if_pos hk] at h
      rw [if_pos hk]
      have hv : v2 = v := Option.some.inj h
      rw [← hk, ← hv]
    · rw [if_neg hk] at h
      rw [if_neg hk, ih h]

theorem dictGet?_foldl_dictSet_not_mem {α β : Type} [DecidableEq α] (u : List (α × β)) :
    ∀ (d : List (α × β)) (k : α), k ∉ u.map Prod.fst →
      dictGet? (u.foldl (fun a kv => dictSet a kv.1 kv.2) d) k = dictGet? d k := by
  induction u with
  | nil =>
    intro d k _
    rfl
  | cons kv rest ih =>
    intro d k hk
    rw [List.foldl_cons]
    have hk1 : kv.1 ≠ k := by
      intro hc
      refine hk ?_
      rw [List.map_cons, ← hc]
      exact List.mem_cons_self _ _
    have hk2 : k ∉ rest.map Prod.fst := by
      intro hc
      refine hk ?_
      rw [List.map_cons]
      exact List.mem_cons_of_mem _ hc
    rw [ih (dictSet d kv.1 kv.2) k hk2, dictGet?_dictSet, if_neg hk1]

theorem dictGet?_foldl_dictSet_mem {α β : Type} [DecidableEq α] (u : List (α × β)) :
    ∀ (d : List (α × β)), NodupKeys u → ∀ kv ∈ u,
      dictGet? (u.foldl (fun a kv2 => dictSet a kv2.1 kv2.2) d) kv.1 = some kv.2 := by
  induction u with
  | nil =>
    intro d _ kv hkv
    cases hkv
  | cons kv0 rest ih =>
    intro d hnd kv hkv
    have hnd2 : (kv0.1 ∉ rest.map Prod.fst) ∧ (rest.map Prod.fst).Nodup := by
      have hnd3 : (kv0.1 :: rest.map Prod.fst).Nodup := by
        have hnd4 : ((kv0 :: rest).map Prod.fst).Nodup := hnd
        rwa [List.map_cons] at hnd4
      exact List.nodup_cons.mp hnd3
    rw [List.foldl_cons]
    rcases List.mem_cons.mp hkv with rfl | hkv2
    · rw [dictGet?_foldl_dictSet_not_mem rest _ _ hnd2.1, dictGet?_dictSet, if_pos rfl]
    · exact ih (dictSet d kv0.1 kv0.2) hnd2.2 kv hkv2

theorem dictUpdate_stable {α β : Type} [DecidableEq α] (u : List (α × β)) :
    ∀ (D : List (α × β)), (∀ kv ∈ u, dictGet? D kv.1 = some kv.2) → dictUpdate D u = D := by
  induction u with
  | nil =>
    intro D _
    rfl
  | cons kv rest ih =>
    intro D hD
    show (kv :: rest).foldl (fun a kv2 => dictSet a kv2.1 kv2.2) D = D
    rw [List.foldl_cons, dictSet_of_get_eq D kv.1 kv.2 (hD kv (List.mem_cons_self _ _))]
    exact ih D (fun kv2 h2 => hD kv2 (List.mem_cons_of_mem _ h2))

theorem dictUpdate_idem {α β : Type} [DecidableEq α] (d u : List (α × β))
    (hnd : NodupKeys u) : dictUpdate (dictUpdate d u) u = dictUpdate d u := by
  apply dictUpdate_stable
  intro kv hkv
  show dictGet? (u.foldl (fun a kv2 => dictSet a kv2.1 kv2.2) d) kv.1 = some kv.2
  exact dictGet?_foldl_dictSet_mem u d hnd kv hkv

theorem nodupKeys_filter {α β : Type} (q : α × β → Bool) (d : List (α × β))
    (h : NodupKeys d) : NodupKeys (d.filter q) := by
  show ((d.filter q).map Prod.fst).Nodup
  exact List.Nodup.sublist ((List.filter_sublist d).map Prod.fst) h

theorem syncOneGroup_idem (unified : List Group) (index : Param → Option (Nat × Nat))
    (hnk : ∀ u ∈ unified, NodupKeys (stripGroupAttrs u.attrs)) (g g' : Group)
    (h : syncOneGroup unified index g = .ok g') :
    syncOneGroup unified index g' = .ok g' := by
  obtain ⟨gparams, gattrs⟩ := g
  cases gparams with
  | nil =>
    simp only [syncOneGroup] at h
    exact Except.noConfusion h
  | cons p rest =>
    simp only [syncOneGroup] at h
    cases hi : index p with
    | none =>
      simp only [hi] at h
      exact Except.noConfusion h
    | some gi =>
      simp only [hi] at h
      cases hu : unified.get? gi.1 with
      | none =>
        simp only [hu] at h
        exact Except.noConfusion h
      | some u =>
        simp only [hu] at h
        have hg' := Except.ok.inj h
        subst hg'
        simp only [syncOneGroup, hi, hu]
        rw [dictUpdate_idem gattrs (stripGroupAttrs u.attrs)
          (hnk u (List.get?_mem hu))]

theorem mapM_inv_cons (f : Group → Except PyError Group) (g : Group) (t : List Group)
    (out : List Group) (h : (g :: t).mapM f = .ok out) :
    ∃ g1 t1, f g = .ok g1 ∧ t.mapM f = .ok t1 ∧ out = g1 :: t1 := by
  cases hg : f g with
  | error e0 =>
    rw [List.mapM_cons, hg] at h
    exact Except.noConfusion h
  | ok g1 =>
    cases ht : t.mapM f with
    | error e0 =>
      rw [List.mapM_cons, hg, ht] at h
      exact Except.noConfusion h
    | ok t1 =>
      rw [List.mapM_cons, hg, ht] at h
      exact ⟨g1, t1, rfl, rfl, (Except.ok.inj h).symm⟩

theorem mapM_params_pres (f : Group → Except PyError Group)
    (hpp : ∀ g g', f g = .ok g' → g'.params = g.params) (gs : List Group) :
    ∀ out, gs.mapM f = .ok out → out.map Group.params = gs.map Group.params := by
  induction gs with
  | nil =>
    intro out h
    have hout : out = [] := (Except.ok.inj h).symm
    rw [hout]
  | cons g t ih =>
    intro out h
    obtain ⟨g1, t1, hg, ht, rfl⟩ := mapM_inv_cons f g t out h
    rw [List.map_cons, List.map_cons, hpp g g1 hg, ih t1 ht]

theorem mapM_idem (f : Group → Except PyError Group)
    (hidem : ∀ g g', f g = .ok g' → f g' = .ok g') (gs : List Group) :
    ∀ out, gs.mapM f = .ok out → out.mapM f = .ok out := by
  induction gs with
  | nil =>
    intro out h
    have hout : out = [] := (Except.ok.inj h).symm
    rw [hout]
    rfl
  | cons g t ih =>
    intro out h
    obtain ⟨g1, t1, hg, ht, rfl⟩ := mapM_inv_cons f g t out h
    rw [List.mapM_cons, hidem g g1 hg, ih t1 ht]
    rfl

theorem stageOne_inv (c2g : List (Param × Param)) (bufs : Param → Option Nat) (env : Env)
    (p : Param) (be : (Param → Option Nat) × Env)
    (h : stageOne c2g bufs env p = .ok be) :
    ∃ gp v, dictGet? c2g p = some gp ∧ env.grad gp = some v
      ∧ be.2 = setReq (setGrad env p (some v)) p true := by
  cases hg : dictGet? c2g p with
  | none =>
    have hone : stageOne c2g bufs env p = .error .keyErrorCpuCopysMapGpuParam := by
      simp [stageOne, hg, Bind.bind, Except.bind]
    rw [hone] at h
    exact Except.noConfusion h
  | some gp =>
    cases he : env.grad gp with
    | none =>
      cases hb : bufs p with
      | none =>
        have hone : stageOne c2g bufs env p = .error .attributeNoneGradShape := by
          simp [stageOne, hg, hb, he, Bind.bind, Except.bind]
        rw [hone] at h
        exact Except.noConfusion h
      | some w =>
        have hone : stageOne c2g bufs env p = .error .typeErrorCopyFromNoneGrad := by
          simp [stageOne, hg, hb, he, hasattrGrad, Bind.bind, Except.bind]
        rw [hone] at h
        exact Except.noConfusion h
    | some v =>
      obtain ⟨bufs2, hone, -, -⟩ := stageOne_ok c2g bufs env p gp v hg he
      rw [hone] at h
      have h2 := Except.ok.inj h
      exact ⟨gp, v, rfl, he, by rw [← h2]⟩

theorem stageParams_ok_inv (c2g : List (Param × Param))
    (hwf : ∀ k gp, dictGet? c2g k = some gp → dictGet? c2g gp = none)
    (qs : List Param) :
    ∀ (bufs : Param → Option Nat) (env : Env) b2 e2,
      stageParams c2g qs bufs env = .ok (b2, e2) →
      (∀ x, dictGet? c2g x = none → e2.grad x = env.grad x)
      ∧ (∀ q ∈ qs, ∃ gp, dictGet? c2g q = some gp ∧ env.grad gp ≠ none) := by
  induction qs with
  | nil =>
    intro bufs env b2 e2 h
    have h2 := Except.ok.inj h
    have he : e2 = env := (congrArg Prod.snd h2).symm
    subst he
    exact ⟨fun x _ => rfl, fun q hq => absurd hq (List.not_mem_nil q)⟩
  | cons q rest ih =>
    intro bufs env b2 e2 h
    cases hone : stageOne c2g bufs env q with
    | error e0 =>
      have hrun : stageParams c2g (q :: rest) bufs env = .error e0 := by
        show (do
          let be ← stageOne c2g bufs env q
          stageParams c2g rest be.1 be.2) = _
        rw [hone]
        rfl
      rw [hrun] at h
      exact Except.noConfusion h
    | ok be =>
      obtain ⟨b1, e1⟩ := be
      have hrun : stageParams c2g (q :: rest) bufs env = stageParams c2g rest b1 e1 := by
        show (do
          let be ← stageOne c2g bufs env q
          stageParams c2g rest be.1 be.2) = _
        rw [hone]
        rfl
      rw [hrun] at h
      obtain ⟨gp, v, hgp, hgrad, he1⟩ := stageOne_inv c2g bufs env q (b1, e1) hone
      obtain ⟨hframe, hpre⟩ := ih b1 e1 b2 e2 h
      have he1grad : ∀ x, dictGet? c2g x = none → e1.grad x = env.grad x := by
        intro x hx
        have hxq : x ≠ q := by
          intro hc
          rw [hc, hgp] at hx
          exact Option.noConfusion hx
        have he1b : e1 = setReq (setGrad env q (some v)) q true := he1
        rw [he1b, setReq_grad, setGrad_grad, if_neg hxq]
      refine ⟨?_, ?_⟩
      · intro x hx
        rw [hframe x hx, he1grad x hx]
      · intro q2 hq2
        rcases List.mem_cons.mp hq2 with rfl | hq3
        · refine ⟨gp, hgp, ?_⟩
          rw [hgrad]
          exact fun hc => Option.noConfusion hc
        · obtain ⟨gp2, hgp2, hg2⟩ := hpre q2 hq3
          refine ⟨gp2, hgp2, ?_⟩
          rw [← he1grad gp2 (hwf q2 gp2 hgp2)]
          exact hg2

theorem stageParams_ok_of (c2g : List (Param × Param))
    (hwf : ∀ k gp, dictGet? c2g k = some gp → dictGet? c2g gp = none)
    (qs : List Param) :
    ∀ (bufs : Param → Option Nat) (env : Env),
      (∀ q ∈ qs, ∃ gp, dictGet? c2g q = some gp ∧ env.grad gp ≠ none) →
      ∃ b2 e2, stageParams c2g qs bufs env = .ok (b2, e2)
        ∧ (∀ x, dictGet? c2g x = none → e2.grad x = env.grad x) := by
  induction qs with
  | nil =>
    intro bufs env _
    exact ⟨bufs, env, rfl, fun x _ => rfl⟩
  | cons q rest ih =>
    intro bufs env hpre
    obtain ⟨gp, hgp, hgrad⟩ := hpre q (List.mem_cons_self _ _)
    cases he : env.grad gp with
    | none => exact absurd he hgrad
    | some v =>
      obtain ⟨bufs1, hone, -, -⟩ := stageOne_ok c2g bufs env q gp v hgp he
      set e1 := setReq (setGrad env q (some v)) q true with he1
      have he1grad : ∀ x, dictGet? c2g x = none → e1.grad x = env.grad x := by
        intro x hx
        have hxq : x ≠ q := by
          intro hc
          rw [hc, hgp] at hx
          exact Option.noConfusion hx
        rw [he1, setReq_grad, setGrad_grad, if_neg hxq]
      obtain ⟨b2, e2, hrest, hframe⟩ := ih bufs1 e1
        (by
          intro q2 hq2
          obtain ⟨gp2, hgp2, hg2⟩ := hpre q2 (List.mem_cons_of_mem _ hq2)
          refine ⟨gp2, hgp2, ?_⟩
          rw [he1grad gp2 (hwf q2 gp2 hgp2)]
          exact hg2)
      refine ⟨b2, e2, ?_, ?_⟩
      · show (do
          let be ← stageOne c2g bufs env q
          stageParams c2g rest be.1 be.2) = _
        rw [hone]
        simpa [Bind.bind, Except.bind] using hrest
      · intro x hx
        rw [hframe x hx, he1grad x hx]

theorem syncCpuLoop_rerun (unified : List Group) (index : Param → Option (Nat × Nat))
    (c2g : List (Param × Param))
    (hc2gwf : ∀ k gp, dictGet? c2g k = some gp → dictGet? c2g gp = none)
    (hidem : ∀ g g', syncOneGroup unified index g = .ok g'
      → syncOneGroup unified index g' = .ok g')
    (opts : List SubOptimizer) :
    ∀ (bufs : Param → Option Nat) (env : Env) opts2 bufs2 env2,
      syncCpuLoop unified index c2g opts bufs env = .ok (opts2, bufs2, env2) →
      (∀ x, dictGet? c2g x = none → env2.grad x = env.grad x)
      ∧ ∀ (bufsB : Param → Option Nat) (envB : Env),
          (∀ x, dictGet? c2g x = none → envB.grad x = env.grad x) →
          ∃ bufs3 env3, syncCpuLoop unified index c2g opts2 bufsB envB
            = .ok (opts2, bufs3, env3) := by
  induction opts with
  | nil =>
    intro bufs env opts2 bufs2 env2 h
    have h2 := Except.ok.inj h
    have ho : opts2 = [] := (congrArg Prod.fst h2).symm
    have he : env2 = env := (congrArg (fun t => t.2.2) h2).symm
    subst ho
    subst he
    exact ⟨fun x _ => rfl, fun bufsB envB _ => ⟨bufsB, envB, rfl⟩⟩
  | cons o rest ih =>
    intro bufs env opts2 bufs2 env2 h
    have h' : (do
      let groups ← o.param_groups.mapM (syncOneGroup unified index)
      let be ← stageParams c2g o.allParams bufs env
      let r ← syncCpuLoop unified index c2g rest be.1 be.2
      Except.ok ({ o with param_groups := groups } :: r.1, r.2))
        = Except.ok (opts2, bufs2, env2) := h
    cases hm : o.param_groups.mapM (syncOneGroup unified index) with
    | error e0 =>
      simp only [hm, Bind.bind, Except.bind] at h'
      exact Except.noConfusion h'
    | ok groups1 =>
      cases hs : stageParams c2g o.allParams bufs env with
      | error e0 =>
        simp only [hm, hs, Bind.bind, Except.bind] at h'
        exact Except.noConfusion h'
      | ok be =>
        obtain ⟨b1, e1⟩ := be
        cases hrest : syncCpuLoop unified index c2g rest b1 e1 with
        | error e0 =>
          simp only [hm, hs, hrest, Bind.bind, Except.bind] at h'
          exact Except.noConfusion h'
        | ok r =>
          obtain ⟨restOpts, b2r, e2r⟩ := r
          simp only [hm, hs, hrest, Bind.bind, Except.bind] at h'
          have h2 := Except.ok.inj h'
          have hop : opts2 = { o with param_groups := groups1 } :: restOpts :=
            (congrArg Prod.fst h2).symm
          have hev : env2 = e2r := (congrArg (fun t => t.2.2) h2).symm
          subst hop
          obtain ⟨hframe1, hpre1⟩ := stageParams_ok_inv c2g hc2gwf o.allParams
            bufs env b1 e1 hs
          obtain ⟨hframeR, hrerunR⟩ := ih b1 e1 restOpts b2r e2r hrest
          refine ⟨?_, ?_⟩
          · intro x hx
            rw [hev, hframeR x hx, hframe1 x hx]
          · intro bufsB envB hB
            have hmapM2 : groups1.mapM (syncOneGroup unified index) = .ok groups1 :=
              mapM_idem _ hidem _ _ hm
            have hparams : groups1.map Group.params = o.param_groups.map Group.params :=
              mapM_params_pres _ (fun g g' => syncOneGroup_params unified index g g') _ _ hm
            have hallP : SubOptimizer.allParams { o with param_groups := groups1 }
                = o.allParams := subOpt_withGroups_allParams o groups1 hparams
            obtain ⟨b1B, e1B, hsB, hframeB⟩ := stageParams_ok_of c2g hc2gwf o.allParams
              bufsB envB
              (by
                intro q hq
                obtain ⟨gp, hgp, hgrad⟩ := hpre1 q hq
                refine ⟨gp, hgp, ?_⟩
                rw [hB gp (hc2gwf q gp hgp)]
                exact hgrad)
            obtain ⟨b3, e3, hrest2⟩ := hrerunR b1B e1B
              (by
                intro x hx
                rw [hframeB x hx, hB x hx, ← hframe1 x hx])
            refine ⟨b3, e3, ?_⟩
            show (do
              let groups ← ({ o with param_groups := groups1 } :
                SubOptimizer).param_groups.mapM (syncOneGroup unified index)
              let be ← stageParams c2g
                (SubOptimizer.allParams { o with param_groups := groups1 }) bufsB envB
              let r ← syncCpuLoop unified index c2g restOpts be.1 be.2
              Except.ok ({ ({ o with param_groups := groups1 } : SubOptimizer) with
                param_groups := groups } :: r.1, r.2)) = _
            rw [hallP]
            have hpg2 : ({ o with param_groups := groups1 } :
                SubOptimizer).param_groups.mapM (syncOneGroup unified index)
                = .ok groups1 := hmapM2
            simp only [hpg2, hsB, hrest2, Bind.bind, Except.bind]
  
theorem syncHdo_eq (s : Sys) :
    syncHdoParamGroupsToSubOptimizers s = (do
      let r ← syncCpuLoop s.hdo.param_groups (paramGroupIndex s.hdo) s.hdo.c2g
        s.hdo.cpu_optimizers s.hdo.cpu_copy_map_grad s.env
      let gpuRes ← match s.hdo.gpu_optimizer with
        | none => Except.ok (none : Option SubOptimizer)
        | some g => do
            let groups ← g.param_groups.mapM
              (syncOneGroup s.hdo.param_groups (paramGroupIndex s.hdo))
            Except.ok (some { g with param_groups := groups })
      Except.ok (⟨{ s.hdo with
                      cpu_optimizers := r.1,
                      gpu_optimizer := gpuRes,
                      cpu_copy_map_grad := r.2.1 }, r.2.2⟩ : Sys)) := rfl

theorem paramGroupIndex_update (h0 : HDO) (opts2 : List SubOptimizer)
    (bufs2 : Param → Option Nat) (og : Option SubOptimizer) :
    paramGroupIndex { h0 with
      cpu_optimizers := opts2, gpu_optimizer := og, cpu_copy_map_grad := bufs2 }
      = paramGroupIndex h0 := rfl

/-- C8: the hyperparameter synchronization is idempotent: on a well-formed
optimizer state, if `_sync_hdo_param_groups_to_sub_optimizers` succeeds,
running it a second time with no intervening change to the unified groups
also succeeds and leaves every sub-optimizer group's hyperparameters (the
whole `param_groups` structure of every CPU optimizer and of the GPU
optimizer) exactly as after the first call. -/
theorem hyperparameter_sync_idempotent (s s1 : Sys) (hwf : SysWF s)
    (h1 : syncHdoParamGroupsToSubOptimizers s = .ok s1) :
    ∃ s2, syncHdoParamGroupsToSubOptimizers s1 = .ok s2
      ∧ subGroupsProj s2 = subGroupsProj s1 := by
  obtain ⟨hnk, hc2g0⟩ := hwf
  have hc2gwf : ∀ k gp, dictGet? s.hdo.c2g k = some gp
      → dictGet? s.hdo.c2g gp = none := by
    intro k gp hk
    exact hc2g0 (k, gp) (dictGet?_mem _ _ _ hk)
  have hidem : ∀ g g', syncOneGroup s.hdo.param_groups (paramGroupIndex s.hdo) g = .ok g'
      → syncOneGroup s.hdo.param_groups (paramGroupIndex s.hdo) g' = .ok g' := by
    intro g g' hg
    refine syncOneGroup_idem _ _ ?_ g g' hg
    intro u hu
    exact nodupKeys_filter _ _ (hnk u hu)
  rw [syncHdo_eq] at h1
  cases hc : syncCpuLoop s.hdo.param_groups (paramGroupIndex s.hdo) s.hdo.c2g
      s.hdo.cpu_optimizers s.hdo.cpu_copy_map_grad s.env with
  | error e0 =>
    simp only [hc, Bind.bind, Except.bind] at h1
    exact Except.noConfusion h1
  | ok r =>
    obtain ⟨opts2, bufs2, env2⟩ := r
    obtain ⟨hframe, hrerun⟩ := syncCpuLoop_rerun s.hdo.param_groups
      (paramGroupIndex s.hdo) s.hdo.c2g hc2gwf hidem s.hdo.cpu_optimizers
      s.hdo.cpu_copy_map_grad s.env opts2 bufs2 env2 hc
    obtain ⟨bufs3, env3, hc2⟩ := hrerun bufs2 env2 (fun x hx => hframe x hx)
    cases hg : s.hdo.gpu_optimizer with
    | none =>
      simp only [hc, hg, Bind.bind, Except.bind] at h1
      have hs1 := (Except.ok.inj h1).symm
      subst hs1
      refine ⟨⟨{ s.hdo with
                  cpu_optimizers := opts2,
                  gpu_optimizer := none,
                  cpu_copy_map_grad := bufs3 }, env3⟩, ?_, rfl⟩
      rw [syncHdo_eq]
      simp only [paramGroupIndex_update, hc2, Bind.bind, Except.bind]
    | some g0 =>
      cases hm0 : g0.param_groups.mapM
          (syncOneGroup s.hdo.param_groups (paramGroupIndex s.hdo)) with
      | error e0 =>
        simp only [hc, hg, hm0, Bind.bind, Except.bind] at h1
        exact Except.noConfusion h1
      | ok groups1 =>
        simp only [hc, hg, hm0, Bind.bind, Except.bind] at h1
        have hs1 := (Except.ok.inj h1).symm
        subst hs1
        have hm2 : groups1.mapM
            (syncOneGroup s.hdo.param_groups (paramGroupIndex s.hdo))
            = .ok groups1 := mapM_idem _ hidem _ _ hm0
        refine ⟨⟨{ s.hdo with
                    cpu_optimizers := opts2,
                    gpu_optimizer := some { g0 with param_groups := groups1 },
                    cpu_copy_map_grad := bufs3 }, env3⟩, ?_, rfl⟩
        rw [syncHdo_eq]
        simp only [paramGroupIndex_update, hc2, hm2, Bind.bind, Except.bind]

/-- Witness: C8 instantiated on the concrete one-shadow system. -/
theorem hyperparameter_sync_idempotent_witness :
    SysWF exSys
    ∧ ∃ s1 s2, syncHdoParamGroupsToSubOptimizers exSys = Except.ok s1
        ∧ syncHdoParamGroupsToSubOptimizers s1 = Except.ok s2
        ∧ subGroupsProj s2 = subGroupsProj s1 := by
  refine ⟨by decide, ?_⟩
  obtain ⟨s2, h2, hproj⟩ := hyperparameter_sync_idempotent exSys _ (by decide) rfl
  exact ⟨_, s2, rfl, h2, hproj⟩

end HybridOpt

